import Mathlib

/-!
The attribute converter and the handler of slog-journal (`converter.go`,
`handler.go`)

A shallow embedding of the converter and of the handler of the `slogjournal`
package, and the properties of its flattening of attribute trees, field-name
sanitisation, prefix resolution, level mapping, identity field and handler
methods.

Modelling conventions.

* Go strings are Lean `String`s, that is, valid UTF-8: `range` over a string
  visits its code points (`String.data`), and indexing `s[0]` reads the lead
  byte of the UTF-8 encoding of the first code point.
* A Go `map[string]T` is an association list with pairwise distinct keys, kept
  so by `GoMap.set`.  The order in which `range` visits a map is not fixed by
  the language: it is an explicit `RangeOrder`, over which every statement is
  quantified; a nested `map[string]any` lists its entries in the order in which
  they are visited.
* Package-level variables are fields of `Globals`, threaded through the
  functions that read or write them.
* Handlers are allocated in a store (`Handlers`); a `*JournalHandler` is an
  index into it.  The slice `groups` of a handler is a view (`Slice`) of a
  backing array in `Arrays`, which `append` may write in place, so that
  handlers derived from one receiver may share cells; how many cells a new
  array has to spare is the business of the runtime and a parameter (`spare`).
  The slices of attributes are lists: `WithGroup` copies the slice header and
  writes none of its cells, and the sharing of their backing arrays, which
  depends on the library function `AppendAttrsToGroup`, is not modelled.
* The functions of `github.com/samber/slog-common` are not part of the package;
  they are parameters (`SlogCommon`, `SlogCommonHandler`) of the functions that
  call them.
-/

namespace SlogJournal

/-! ## Go values and maps -/

/-- The dynamic values that are neither `map[string]any` nor `[]any`, each with
what `fmt.Sprintf("%+v", v)` prints for it. -/
inductive Scalar where
  | str (s : String)
  | int (n : Int)
  | bool (b : Bool)
  | nil
  | other (rendering : String)
  deriving DecidableEq, Repr

/-- A value of type `any` as `flattenToMap` sees it: a `map[string]any` (its
entries in the order `range` visits them), a `[]any`, or anything else. -/
inductive Value where
  | leaf (t : Scalar)
  | map (t : List (String × Value))
  | seq (t : List Value)

/-- A Go `map[string]α`. -/
abbrev GoMap (α : Type) := List (String × α)

namespace GoMap

/-- The assignment `m[k] = v`. -/
def set {α : Type} : GoMap α → String → α → GoMap α
  | [], k, v => [(k, v)]
  | (k', v') :: rest, k, v =>
    if k' = k then (k, v) :: rest else (k', v') :: set rest k v

/-- The lookup `v, ok := m[k]`. -/
def get? {α : Type} : GoMap α → String → Option α
  | [], _ => none
  | (k', v') :: rest, k => if k' = k then some v' else get? rest k

/-- The keys of the map. -/
def keys {α : Type} (m : GoMap α) : List String := m.map Prod.fst

end GoMap

/-- The order in which a `range` loop visits the entries of a map: each entry
once, in an order the language leaves open. -/
structure RangeOrder where
  visit : {α : Type} → GoMap α → GoMap α
  perm : ∀ {α : Type} (m : GoMap α), (visit m).Perm m

/-- The visiting order that follows the representation. -/
def RangeOrder.inOrder : RangeOrder := ⟨fun m => m, fun _ => List.Perm.refl _⟩

/-- The visiting order that follows the representation backwards. -/
def RangeOrder.backwards : RangeOrder := ⟨fun m => m.reverse, fun m => List.reverse_perm m⟩

/-- What `fmt.Sprintf("%+v", v)` returns for a leaf value. -/
def sprintf : Scalar → String
  | .str s => s
  | .int n => toString n
  | .bool b => if b then "true" else "false"
  | .nil => "<nil>"
  | .other rendering => rendering

/-- The function `strconv.Itoa` on a slice index. -/
def itoa (i : Nat) : String := toString i

/-! ## `flattenToMap` -/

/-- The key under which a child is walked: `key := k; if prefix != ""
{ key = prefix + "_" + k }`. -/
def childKey (pfx k : String) : String :=
  if pfx ≠ "" then pfx ++ "_" ++ k else k

mutual
/-- The closure `walk` of `flattenToMap`; the map `flat` it writes to is passed
in and returned. -/
def walk : Value → String → GoMap Scalar → GoMap Scalar
  | .leaf t, pfx, flat => flat.set pfx t
  | .map t, pfx, flat => walkMap t pfx flat
  | .seq t, pfx, flat => walkSeq t pfx 0 flat
/-- The loop `for k, val := range t` of `walk` over the entries still to visit. -/
def walkMap : List (String × Value) → String → GoMap Scalar → GoMap Scalar
  | [], _, flat => flat
  | (k, val) :: rest, pfx, flat => walkMap rest pfx (walk val (childKey pfx k) flat)
/-- The loop `for i, elem := range t` of `walk` from index `i` on. -/
def walkSeq : List Value → String → Nat → GoMap Scalar → GoMap Scalar
  | [], _, _, flat => flat
  | elem :: rest, pfx, i, flat =>
    walkSeq rest pfx (i + 1) (walk elem (childKey pfx (itoa i)) flat)
end

/-- The final loop `for k, v := range nested { walk(k, v) }` of `flattenToMap`. -/
def walkTop : List (String × Value) → GoMap Scalar → GoMap Scalar
  | [], flat => flat
  | (k, v) :: rest, flat => walkTop rest (walk v k flat)

/-- The function `flattenToMap`; a nil map is `none`. -/
def flattenToMap (nested : Option (List (String × Value))) : GoMap Scalar :=
  match nested with
  | none => []
  | some entries => walkTop entries []

/-! ## `attrsToFields` -/

/-- The functions of `github.com/samber/slog-common` that the converter calls,
over the library's attribute type `Attr` and the record type `Record`. -/
structure SlogCommon (Attr Record : Type) where
  AppendRecordAttrsToAttrs : List Attr → List String → Record → List Attr
  ReplaceError : List Attr → List String → List Attr
  Source : String → Record → Attr
  ReplaceAttrs : Option (List String → Attr → Attr) → List String → List Attr → List Attr
  RemoveEmptyAttrs : List Attr → List Attr
  AttrsToMap : List Attr → Option (List (String × Value))

/-- The guard of the inner loop of `attrsToFields`:
`('A' > c || c > 'Z') && ('a' > c || c > 'z') && ('0' > c || c > '9') && c != '_'`. -/
def skips (c : Char) : Bool :=
  (decide ('A'.toNat > c.toNat) || decide (c.toNat > 'Z'.toNat)) &&
  (decide ('a'.toNat > c.toNat) || decide (c.toNat > 'z'.toNat)) &&
  (decide ('0'.toNat > c.toNat) || decide (c.toNat > '9'.toNat)) &&
  decide (c ≠ '_')

/-- The rune appended to `field`: `if 'a' <= c && c <= 'z' { c -= 'a' - 'A' }`. -/
def folded (c : Char) : Char :=
  if 'a'.toNat ≤ c.toNat ∧ c.toNat ≤ 'z'.toNat then
    Char.ofNat (c.toNat - ('a'.toNat - 'A'.toNat))
  else c

/-- The inner loop `for _, c := range k` of `attrsToFields` over the runes still
to read, with `field` as built so far; `none` is `skip = true`. -/
def fieldLoop : List Char → String → Option String
  | [], field => some field
  | c :: rest, field =>
    if skips c then none else fieldLoop rest (field ++ String.singleton (folded c))

/-- The outer loop `for k, v := range flatMap` of `attrsToFields` over the
entries still to visit. -/
def fieldsLoop (pfx : String) : List (String × Scalar) → GoMap String → GoMap String
  | [], fields => fields
  | (k, v) :: rest, fields =>
    match fieldLoop k.data "" with
    | none => fieldsLoop pfx rest fields
    | some field => fieldsLoop pfx rest (fields.set (pfx ++ field) (sprintf v))

/-- The function `attrsToFields`. -/
def attrsToFields {Attr Record : Type} (lib : SlogCommon Attr Record) (ro : RangeOrder)
    (pfx : String) (attrs : List Attr) : GoMap String :=
  let nestedMap := lib.AttrsToMap attrs
  let flatMap := flattenToMap nestedMap
  fieldsLoop pfx (ro.visit flatMap) []

/-! ## `fieldPrefixer` -/

/-- A priority of `github.com/coreos/go-systemd/v22/journal`. -/
abbrev Priority := Int

/-- The constant `journal.PriErr`. -/
def PriErr : Priority := 3
/-- The constant `journal.PriWarning`. -/
def PriWarning : Priority := 4
/-- The constant `journal.PriNotice`. -/
def PriNotice : Priority := 5
/-- The constant `journal.PriInfo`. -/
def PriInfo : Priority := 6
/-- The constant `journal.PriDebug`. -/
def PriDebug : Priority := 7

/-- The package-level variables of `converter.go`. -/
structure Globals where
  SourceKey : String
  ErrorKeys : List String
  FieldPrefix : String
  LogLevelToPriority : GoMap Priority
  appliedFieldPrefix : String

/-- The initial value of `LogLevelToPriority`. -/
def defaultLogLevelToPriority : GoMap Priority :=
  [("DEBUG", PriDebug), ("INFO", PriInfo), ("WARN", PriWarning), ("ERROR", PriErr)]

/-- The package-level variables as the package initialises them. -/
def Globals.initial : Globals :=
  { SourceKey := "source", ErrorKeys := ["error", "err"], FieldPrefix := "",
    LogLevelToPriority := defaultLogLevelToPriority, appliedFieldPrefix := "" }

/-- The first byte of the UTF-8 encoding of a code point. -/
def utf8LeadByte (c : Char) : Nat :=
  if c.toNat < 0x80 then c.toNat
  else if c.toNat < 0x800 then 0xC0 + c.toNat / 0x40
  else if c.toNat < 0x10000 then 0xE0 + c.toNat / 0x1000
  else 0xF0 + c.toNat / 0x40000

/-- The guard of the loop of `fieldPrefixer`:
`('A' > c || c > 'Z') && ('0' > c || c > '9') && c != '_'`. -/
def refuses (c : Char) : Bool :=
  (decide ('A'.toNat > c.toNat) || decide (c.toNat > 'Z'.toNat)) &&
  (decide ('0'.toNat > c.toNat) || decide (c.toNat > '9'.toNat)) &&
  decide (c ≠ '_')

/-- The loop `for _, c := range FieldPrefix` of `fieldPrefixer` over the runes
still to read: `true` when it returns `"SLOG_"`. -/
def prefixLoop : List Char → Bool
  | [] => false
  | c :: rest => if refuses c then true else prefixLoop rest

/-- The function literal of `fieldPrefixer` that computes the prefix to apply. -/
def computePrefix (FieldPrefix : String) : String :=
  match FieldPrefix.data with
  | [] => "SLOG_"
  | c0 :: _ =>
    if 'A'.toNat > utf8LeadByte c0 ∨ utf8LeadByte c0 > 'Z'.toNat then "SLOG_"
    else if prefixLoop FieldPrefix.data then "SLOG_"
    else FieldPrefix ++ "_"

/-- The function `fieldPrefixer`: the prefix it returns and the package variables it leaves. -/
def fieldPrefixer (g : Globals) : String × Globals :=
  if g.appliedFieldPrefix ≠ "" ∧ g.appliedFieldPrefix = g.FieldPrefix then
    (g.appliedFieldPrefix, g)
  else
    let applied := computePrefix g.FieldPrefix
    (applied, { g with appliedFieldPrefix := applied, FieldPrefix := applied })

/-! ## `DefaultConverter` -/

/-- The level of a record, `slog.Level`. -/
abbrev Level := Int

/-- The constant `slog.LevelDebug`. -/
def LevelDebug : Level := -4
/-- The constant `slog.LevelInfo`. -/
def LevelInfo : Level := 0
/-- The constant `slog.LevelWarn`. -/
def LevelWarn : Level := 4
/-- The constant `slog.LevelError`. -/
def LevelError : Level := 8

/-- What `fmt.Sprintf("%+d", val)` prints. -/
def sprintfPlusD (val : Int) : String :=
  if val < 0 then "-" ++ toString val.natAbs else "+" ++ toString val.natAbs

/-- The method `slog.Level.String` of the standard library: the name of the nearest named
level at or below `l`, followed by the signed offset from it when not zero. -/
def levelString (l : Level) : String :=
  let str := fun (base : String) (val : Level) =>
    if val = 0 then base else base ++ sprintfPlusD val
  if l < LevelInfo then str "DEBUG" (l - LevelDebug)
  else if l < LevelWarn then str "INFO" (l - LevelInfo)
  else if l < LevelError then str "WARN" (l - LevelWarn)
  else str "ERROR" (l - LevelError)

/-- What the converter reads of a `slog.Record` itself. -/
structure RecordView (Record : Type) where
  Message : Record → String
  Level : Record → Level

/-- The loop of `maps.Copy(dst, src)`, `for k, v := range src { dst[k] = v }` over the
entries still to visit. -/
def mapsCopyLoop {α : Type} : GoMap α → GoMap α → GoMap α
  | dst, [] => dst
  | dst, (k, v) :: rest => mapsCopyLoop (dst.set k v) rest

/-- The function `maps.Copy(dst, src)`. -/
def mapsCopy {α : Type} (ro : RangeOrder) (dst src : GoMap α) : GoMap α :=
  mapsCopyLoop dst (ro.visit src)

/-- The attributes `DefaultConverter` has aggregated when it turns to the
message: lines 30 to 38. -/
def aggregate {Attr Record : Type} (lib : SlogCommon Attr Record) (g : Globals)
    (addSource : Bool) (replaceAttr : Option (List String → Attr → Attr))
    (loggerAttr : List Attr) (groups : List String) (record : Record) : List Attr :=
  let attrs := lib.AppendRecordAttrsToAttrs loggerAttr groups record
  let attrs := lib.ReplaceError attrs g.ErrorKeys
  let attrs := if addSource then attrs ++ [lib.Source g.SourceKey record] else attrs
  let attrs := lib.ReplaceAttrs replaceAttr [] attrs
  lib.RemoveEmptyAttrs attrs

/-- What `DefaultConverter` returns, and the package variables it leaves. -/
structure Converted where
  message : String
  prio : Priority
  fields : GoMap String
  globals : Globals

/-- The function `DefaultConverter`; `name` and `version` are the constants of the package. -/
def DefaultConverter {Attr Record : Type} (lib : SlogCommon Attr Record)
    (view : RecordView Record) (ro : RangeOrder) (name version : String) (g : Globals)
    (addSource : Bool) (replaceAttr : Option (List String → Attr → Attr))
    (loggerAttr : List Attr) (groups : List String) (record : Record) : Converted :=
  let attrs := aggregate lib g addSource replaceAttr loggerAttr groups record
  let message := view.Message record
  let prio :=
    match g.LogLevelToPriority.get? (levelString (view.Level record)) with
    | some p => p
    | none => PriDebug
  let fields : GoMap String := [("SLOG_LOGGER", name ++ ":" ++ version)]
  let resolved := fieldPrefixer g
  let fields := mapsCopy ro fields (attrsToFields lib ro resolved.1 attrs)
  { message := message, prio := prio, fields := fields, globals := resolved.2 }

/-! ## The alphabets of the specification -/

/-- An uppercase ASCII letter, `A` to `Z`. -/
abbrev IsUpper (c : Char) : Prop := 'A' ≤ c ∧ c ≤ 'Z'

/-- A lowercase ASCII letter, `a` to `z`. -/
abbrev IsLower (c : Char) : Prop := 'a' ≤ c ∧ c ≤ 'z'

/-- An ASCII digit, `0` to `9`. -/
abbrev IsDigit (c : Char) : Prop := '0' ≤ c ∧ c ≤ '9'

/-- A character of `[A-Za-z0-9_]`. -/
abbrev KeyChar (c : Char) : Prop := IsUpper c ∨ IsLower c ∨ IsDigit c ∨ c = '_'

/-- A character of `[A-Z0-9_]`. -/
abbrev NameChar (c : Char) : Prop := IsUpper c ∨ IsDigit c ∨ c = '_'

/-- The raw prefixes that the specification resolves to the default: the empty
one, those whose first character is not an uppercase ASCII letter, and those
with a character outside `[A-Z0-9_]`. -/
abbrev Defaulted (raw : String) : Prop :=
  raw = "" ∨ (∃ c ∈ raw.data.head?, ¬ IsUpper c) ∨ ∃ c ∈ raw.data, ¬ NameChar c

/-! ## A library instance for concrete inputs -/

/-- An attribute whose value is already a Go value: its key and that value. -/
abbrev PlainAttr := String × Value

/-- A record with attributes of that kind and the call site it was made at. -/
structure PlainRecord where
  Message : String
  Level : Level
  Attrs : List PlainAttr
  Function : String
  File : String
  Line : Int

/-- The message and level of a `PlainRecord`. -/
def plainView : RecordView PlainRecord := ⟨PlainRecord.Message, PlainRecord.Level⟩

/-- The library on attributes that have pairwise distinct keys and hold neither
errors nor empty values: record attributes are nested under the groups, and
groups become maps.  It serves to run the converter on concrete inputs. -/
def plainLib : SlogCommon PlainAttr PlainRecord where
  AppendRecordAttrsToAttrs attrs groups record :=
    attrs ++ record.Attrs.map (fun a => groups.foldr (fun g b => (g, Value.map [b])) a)
  ReplaceError attrs _ := attrs
  Source key record :=
    (key, Value.map [("function", .leaf (.str record.Function)),
      ("file", .leaf (.str record.File)), ("line", .leaf (.int record.Line))])
  ReplaceAttrs f groups attrs :=
    match f with
    | none => attrs
    | some f => attrs.map (f groups)
  RemoveEmptyAttrs attrs := attrs
  AttrsToMap attrs := some attrs

/-- The record of the tests: `l.Info(msg, "uuid", uuid)` at the given level. -/
def uuidRecord (level : Level) (msg uuid : String) : PlainRecord :=
  { Message := msg, Level := level, Attrs := [("uuid", .leaf (.str uuid))],
    Function := "", File := "", Line := 0 }

/-! ## Reachable states of the package variables -/

/-- A well-formed field prefix: not empty, beginning with an uppercase ASCII
letter, and made of `[A-Z0-9_]` only. -/
abbrev WellFormedPrefix (p : String) : Prop :=
  p ≠ "" ∧ (∃ c ∈ p.data.head?, IsUpper c) ∧ ∀ c ∈ p.data, NameChar c

/-- The states of the package variables that a program reaches: it starts from
the initial values, it may assign the exported variables at any time, and only
`fieldPrefixer` writes the unexported `appliedFieldPrefix`. -/
inductive Reachable : Globals → Prop
  | start : Reachable Globals.initial
  | assign (g g' : Globals) (h : Reachable g)
      (hkeep : g'.appliedFieldPrefix = g.appliedFieldPrefix) : Reachable g'
  | resolve (g : Globals) (h : Reachable g) : Reachable (fieldPrefixer g).2

/-- The name that `attrsToFields` gives the field of a flattened key under a
prefix: `none` when it skips the key. -/
def fieldName (pfx k : String) : Option String :=
  (fieldLoop k.data "").map (fun field => pfx ++ field)

/-- A record of the tests with the attributes replaced by the given ones. -/
def plainRecord (level : Level) (msg : String) (attrs : List PlainAttr) : PlainRecord :=
  { Message := msg, Level := level, Attrs := attrs, Function := "", File := "", Line := 0 }

/-- The cache of `fieldPrefixer` holds for the raw prefix: the guard
`appliedFieldPrefix != "" && appliedFieldPrefix == FieldPrefix`. -/
abbrev CacheHit (g : Globals) : Prop :=
  g.appliedFieldPrefix ≠ "" ∧ g.appliedFieldPrefix = g.FieldPrefix

/-- The named levels of `slog`: Debug, Info, Warn and Error. -/
def namedLevels : List Level := [LevelDebug, LevelInfo, LevelWarn, LevelError]

/-! ## The handler (`handler.go`) -/

/-- A value of the type `Converter`: a function of the arguments of
`DefaultConverter`, which also reads and writes the package variables. -/
abbrev Converter (Attr Record : Type) :=
  Globals → Bool → Option (List String → Attr → Attr) → List Attr → List String → Record →
    Converted

/-- The struct `Option`.  A `slog.Leveler` is given by the level that its method
`Level` returns, and `none` is a nil field. -/
structure HandlerOption (Attr Record Ctx : Type) where
  Level : Option Level
  Converter : Option (Converter Attr Record)
  AttrFromContext : Option (List (Ctx → List Attr))
  AddSource : Bool
  ReplaceAttr : Option (List String → Attr → Attr)

/-- A slice of strings: the backing array it views, an index into the arrays
allocated so far, with its length and its capacity. -/
structure Slice where
  array : Nat
  len : Nat
  cap : Nat

/-- The backing arrays allocated so far, each with as many cells as its
capacity. -/
abbrev Arrays := List (List String)

/-- The slice literal `[]string{}`: length 0 and capacity 0. -/
def Slice.empty : Slice := { array := 0, len := 0, cap := 0 }

/-- The elements of a slice: the first `len` cells of its backing array. -/
def Slice.elems (mem : Arrays) (s : Slice) : List String :=
  ((mem[s.array]?).getD []).take s.len

/-- A slice as Go keeps it: its length is at most its capacity, and unless the
capacity is 0 its backing array is allocated with that many cells. -/
abbrev Slice.WellFormed (mem : Arrays) (s : Slice) : Prop :=
  s.len ≤ s.cap ∧ (s.cap = 0 ∨ (mem[s.array]?).map List.length = some s.cap)

/-- The call `append(s, x)`.  With room left in the backing array it writes `x`
into the cell after the last element, in place; otherwise it allocates an array
for the elements and `x`, with `spare (len + 1)` cells to spare (how many is the
business of the runtime). -/
def Slice.append (spare : Nat → Nat) (mem : Arrays) (s : Slice) (x : String) :
    Arrays × Slice :=
  if s.len < s.cap then
    (mem.set s.array (((mem[s.array]?).getD []).set s.len x), { s with len := s.len + 1 })
  else
    (mem ++ [s.elems mem ++ x :: List.replicate (spare (s.len + 1)) ""],
      { array := mem.length, len := s.len + 1, cap := s.len + 1 + spare (s.len + 1) })

/-- The least of `cap`, `2 * cap`, `4 * cap`, ... that is at least `needed`,
within `fuel` doublings. -/
def doubledCap : Nat → Nat → Nat → Nat
  | 0, cap, _ => cap
  | fuel + 1, cap, needed => if cap < needed then doubledCap fuel (2 * cap) needed else cap

/-- The cells to spare when capacities double, as the Go runtime grows short
slices of strings one element at a time: capacities 1, 2, 4, 8. -/
def doublingSpare (needed : Nat) : Nat := doubledCap needed 1 needed - needed

/-- The struct `JournalHandler`. -/
structure JournalHandler (Attr Record Ctx : Type) where
  option : HandlerOption Attr Record Ctx
  attrs : List Attr
  groups : Slice

/-- The handlers allocated so far; a `*JournalHandler` is an index into them. -/
abbrev Handlers (Attr Record Ctx : Type) := List (JournalHandler Attr Record Ctx)

/-- The functions of `github.com/samber/slog-common` that the handler calls. -/
structure SlogCommonHandler (Attr Ctx : Type) where
  ContextExtractor : Ctx → List (Ctx → List Attr) → List Attr
  AppendAttrsToGroup : List String → List Attr → List Attr → List Attr

/-- The method `Option.NewJournalHandler`: the handlers with the new one
allocated, and the pointer to it. -/
def HandlerOption.NewJournalHandler {Attr Record Ctx : Type} (lib : SlogCommon Attr Record)
    (view : RecordView Record) (ro : RangeOrder) (name version : String)
    (o : HandlerOption Attr Record Ctx) (heap : Handlers Attr Record Ctx) :
    Handlers Attr Record Ctx × Nat :=
  let o := if o.Level = none then { o with Level := some LevelDebug } else o
  let o := if o.Converter.isNone then
    { o with Converter := some (DefaultConverter lib view ro name version) } else o
  let o := if o.AttrFromContext.isNone then { o with AttrFromContext := some [] } else o
  (heap ++ [{ option := o, attrs := [], groups := Slice.empty }], heap.length)

/-- The method `JournalHandler.Enabled`; `none` is the panic on a nil pointer or
a nil `Level`. -/
def JournalHandler.Enabled {Attr Record Ctx : Type} (heap : Handlers Attr Record Ctx)
    (h : Nat) (level : Level) : Option Bool :=
  match heap[h]? with
  | none => none
  | some r =>
    match r.option.Level with
    | none => none
    | some threshold => some (decide (level ≥ threshold))

/-- The method `JournalHandler.Handle`: what it hands to `journal.Send`, with the
package variables as the converter leaves them; `none` is the panic on a nil
pointer or a nil `Converter`. -/
def JournalHandler.Handle {Attr Record Ctx : Type} (libh : SlogCommonHandler Attr Ctx)
    (heap : Handlers Attr Record Ctx) (mem : Arrays) (h : Nat) (g : Globals) (ctx : Ctx)
    (record : Record) : Option Converted :=
  match heap[h]? with
  | none => none
  | some r =>
    let fromContext := libh.ContextExtractor ctx (r.option.AttrFromContext.getD [])
    match r.option.Converter with
    | none => none
    | some converter =>
      some (converter g r.option.AddSource r.option.ReplaceAttr (r.attrs ++ fromContext)
        (r.groups.elems mem) record)

/-- The method `JournalHandler.WithAttrs`. -/
def JournalHandler.WithAttrs {Attr Record Ctx : Type} (libh : SlogCommonHandler Attr Ctx)
    (heap : Handlers Attr Record Ctx) (mem : Arrays) (h : Nat) (attrs : List Attr) :
    Option (Handlers Attr Record Ctx × Nat) :=
  match heap[h]? with
  | none => none
  | some r =>
    some (heap ++ [{ option := r.option,
                     attrs := libh.AppendAttrsToGroup (r.groups.elems mem) r.attrs attrs,
                     groups := r.groups }], heap.length)

/-- The method `JournalHandler.WithGroup`: the handlers and the backing arrays as
it leaves them, and the pointer it returns; `none` is the panic on a nil pointer.
The new handler copies the slice header of `attrs`, and its `groups` is
`append(h.groups, name)`, which may write into the backing array of the
receiver. -/
def JournalHandler.WithGroup {Attr Record Ctx : Type} (spare : Nat → Nat)
    (heap : Handlers Attr Record Ctx) (mem : Arrays) (h : Nat) (name : String) :
    Option (Handlers Attr Record Ctx × Arrays × Nat) :=
  if name = "" then some (heap, mem, h)
  else
    match heap[h]? with
    | none => none
    | some r =>
      let appended := r.groups.append spare mem name
      some (heap ++ [{ option := r.option, attrs := r.attrs, groups := appended.2 }],
        appended.1, heap.length)

/-- The library of the handler on plain attributes: the attributes that the
extractors return, one after the other. -/
def plainLibHandler : SlogCommonHandler PlainAttr Unit where
  ContextExtractor ctx fns := (fns.map (fun fn => fn ctx)).flatten
  AppendAttrsToGroup groups actual attrs :=
    actual ++ attrs.map (fun a => groups.foldr (fun g b => (g, Value.map [b])) a)

/-- The option of the tests: only the level is set. -/
def levelOption (level : Level) : HandlerOption PlainAttr PlainRecord Unit :=
  { Level := some level, Converter := none, AttrFromContext := none, AddSource := false,
    ReplaceAttr := none }

/-- The option with no field set. -/
def emptyOption : HandlerOption PlainAttr PlainRecord Unit :=
  { Level := none, Converter := none, AttrFromContext := none, AddSource := false,
    ReplaceAttr := none }

/-- A handler of the tests with the groups `a`, `b`, `c` in the first backing
array, which has four cells. -/
def abcHandler : JournalHandler PlainAttr PlainRecord Unit :=
  { option := levelOption LevelInfo, attrs := [], groups := { array := 0, len := 3, cap := 4 } }

/-- The upper-case form of a string: each lowercase ASCII letter replaced by its
uppercase form, every other character kept. -/
def upper (s : String) : String := String.mk (s.data.map Char.toUpper)

/-! ## The leaves of a tree -/

mutual
/-- The leaves under a value reached by the path `path` from the root, each with
its own path from the root, in the order of the walk: a map child adds its key to
the path, the element of index `i` of a sequence adds `i` in base 10. -/
def leavesOf : Value → List String → List (List String × Scalar)
  | .leaf t, path => [(path, t)]
  | .map t, path => leavesOfMap t path
  | .seq t, path => leavesOfSeq t path 0
/-- The leaves under the entries of a map reached by `path`. -/
def leavesOfMap : List (String × Value) → List String → List (List String × Scalar)
  | [], _ => []
  | (k, val) :: rest, path => leavesOf val (path ++ [k]) ++ leavesOfMap rest path
/-- The leaves under the elements, from index `i` on, of a sequence reached by
`path`. -/
def leavesOfSeq : List Value → List String → Nat → List (List String × Scalar)
  | [], _, _ => []
  | elem :: rest, path, i =>
    leavesOf elem (path ++ [Nat.repr i]) ++ leavesOfSeq rest path (i + 1)
end

/-- The leaves of a tree, each with its path from the root. -/
def leaves (nested : List (String × Value)) : List (List String × Scalar) :=
  leavesOfMap nested []

/-- The segments of a path joined by underscores. -/
def joined (path : List String) : String := "_".intercalate path

mutual
/-- A value without a leaf: maps and sequences down to empty ones. -/
def leafless : Value → Bool
  | .leaf _ => false
  | .map t => leaflessMap t
  | .seq t => leaflessSeq t
/-- The values of the entries of a map are without a leaf. -/
def leaflessMap : List (String × Value) → Bool
  | [] => true
  | (_, val) :: rest => leafless val && leaflessMap rest
/-- The elements of a sequence are without a leaf. -/
def leaflessSeq : List Value → Bool
  | [] => true
  | elem :: rest => leafless elem && leaflessSeq rest
end

/-- The key that `walk` has built when it has followed a path from the root. -/
def walkKey : List String → String
  | [] => ""
  | k :: rest => rest.foldl childKey k

/-- The assignments `m[k] = v` for the entries of a list, in order. -/
def GoMap.setAll {α : Type} : GoMap α → List (String × α) → GoMap α
  | m, [] => m
  | m, (k, v) :: rest => GoMap.setAll (m.set k v) rest

/-! ## Visiting orders of the nested maps -/

mutual
/-- A value with the entries of every map in it listed in the order in which
`ro` visits them; the elements of a sequence keep their places. -/
def revisit (ro : RangeOrder) : Value → Value
  | .leaf t => .leaf t
  | .map t => .map (ro.visit (revisitMap ro t))
  | .seq t => .seq (revisitSeq ro t)
/-- The entries of a map with the maps in their values listed as `ro` visits
them. -/
def revisitMap (ro : RangeOrder) : List (String × Value) → List (String × Value)
  | [] => []
  | (k, val) :: rest => (k, revisit ro val) :: revisitMap ro rest
/-- The elements of a sequence with the maps in them listed as `ro` visits them. -/
def revisitSeq (ro : RangeOrder) : List Value → List Value
  | [] => []
  | elem :: rest => revisit ro elem :: revisitSeq ro rest
end

/-- A nested map with its entries, and those of every map in it, listed in the
order in which `ro` visits them. -/
def revisitTop (ro : RangeOrder) (nested : List (String × Value)) : List (String × Value) :=
  ro.visit (revisitMap ro nested)

/-- The field that `attrsToFields` writes for an entry of the flat map under a
prefix: `none` when it skips the key. -/
def toField (pfx : String) (e : String × Scalar) : Option (String × String) :=
  (fieldLoop e.1.data "").map (fun field => (pfx ++ field, sprintf e.2))

/-! ## Characters -/

theorem char_le_iff (a b : Char) : a ≤ b ↔ a.toNat ≤ b.toNat := by
  rw [Char.le_def]; rfl

theorem char_eq_iff (a b : Char) : a = b ↔ a.toNat = b.toNat := by
  constructor
  · rintro rfl; rfl
  · intro h; rw [← Char.ofNat_toNat a, ← Char.ofNat_toNat b, h]

theorem toNat_ofNat_of_lt (n : Nat) (h : n < 0xd800) : (Char.ofNat n).toNat = n := by
  have hv : n.isValidChar := Or.inl h
  unfold Char.ofNat
  rw [dif_pos hv]
  rfl

theorem isUpper_iff (c : Char) : IsUpper c ↔ 65 ≤ c.toNat ∧ c.toNat ≤ 90 := by
  simp only [IsUpper, char_le_iff]; rfl

theorem isLower_iff (c : Char) : IsLower c ↔ 97 ≤ c.toNat ∧ c.toNat ≤ 122 := by
  simp only [IsLower, char_le_iff]; rfl

theorem isDigit_iff (c : Char) : IsDigit c ↔ 48 ≤ c.toNat ∧ c.toNat ≤ 57 := by
  simp only [IsDigit, char_le_iff]; rfl

theorem underscore_iff (c : Char) : c = '_' ↔ c.toNat = 95 := char_eq_iff c '_'

theorem skips_iff (c : Char) : skips c = true ↔
    (c.toNat < 65 ∨ 90 < c.toNat) ∧ (c.toNat < 97 ∨ 122 < c.toNat) ∧
      (c.toNat < 48 ∨ 57 < c.toNat) ∧ c.toNat ≠ 95 := by
  have hA : 'A'.toNat = 65 := rfl
  have hZ : 'Z'.toNat = 90 := rfl
  have ha : 'a'.toNat = 97 := rfl
  have hz : 'z'.toNat = 122 := rfl
  have h0 : '0'.toNat = 48 := rfl
  have h9 : '9'.toNat = 57 := rfl
  simp only [skips, hA, hZ, ha, hz, h0, h9, Bool.and_eq_true, Bool.or_eq_true,
    decide_eq_true_eq, ne_eq, underscore_iff, gt_iff_lt, and_assoc]

theorem skips_eq_false_iff (c : Char) : skips c = false ↔ KeyChar c := by
  rw [← Bool.not_eq_true, skips_iff, KeyChar, isUpper_iff, isLower_iff, isDigit_iff,
    underscore_iff]
  omega

theorem refuses_iff (c : Char) : refuses c = true ↔
    (c.toNat < 65 ∨ 90 < c.toNat) ∧ (c.toNat < 48 ∨ 57 < c.toNat) ∧ c.toNat ≠ 95 := by
  have hA : 'A'.toNat = 65 := rfl
  have hZ : 'Z'.toNat = 90 := rfl
  have h0 : '0'.toNat = 48 := rfl
  have h9 : '9'.toNat = 57 := rfl
  simp only [refuses, hA, hZ, h0, h9, Bool.and_eq_true, Bool.or_eq_true,
    decide_eq_true_eq, ne_eq, underscore_iff, gt_iff_lt, and_assoc]

theorem refuses_eq_false_iff (c : Char) : refuses c = false ↔ NameChar c := by
  rw [← Bool.not_eq_true, refuses_iff, NameChar, isUpper_iff, isDigit_iff, underscore_iff]
  omega

theorem utf8LeadByte_upper_iff (c : Char) :
    (65 ≤ utf8LeadByte c ∧ utf8LeadByte c ≤ 90) ↔ IsUpper c := by
  rw [isUpper_iff]
  unfold utf8LeadByte
  split_ifs <;> omega

theorem string_eq_empty_iff (s : String) : s = "" ↔ s.data = [] := by
  constructor
  · rintro rfl; rfl
  · intro h; exact String.ext h

theorem prefixLoop_iff (cs : List Char) : prefixLoop cs = true ↔ ∃ c ∈ cs, ¬ NameChar c := by
  induction cs with
  | nil => simp [prefixLoop]
  | cons c rest ih =>
    unfold prefixLoop
    by_cases hc : refuses c = true
    · have hn : ¬ NameChar c := fun h => by
        rw [(refuses_eq_false_iff c).2 h] at hc; exact Bool.noConfusion hc
      rw [if_pos hc]
      exact ⟨fun _ => ⟨c, List.mem_cons_self _ _, hn⟩, fun _ => rfl⟩
    · have hk : NameChar c := (refuses_eq_false_iff c).1 (Bool.not_eq_true _ ▸ hc)
      rw [if_neg hc, ih]
      simp only [List.mem_cons]
      constructor
      · rintro ⟨d, hd, hnd⟩; exact ⟨d, Or.inr hd, hnd⟩
      · rintro ⟨d, hd | hd, hnd⟩
        · subst hd; exact absurd hk hnd
        · exact ⟨d, hd, hnd⟩

theorem computePrefix_eq (raw : String) :
    (Defaulted raw → computePrefix raw = "SLOG_") ∧
      (¬ Defaulted raw → computePrefix raw = raw ++ "_") := by
  unfold computePrefix Defaulted
  rw [string_eq_empty_iff]
  cases hd : raw.data with
  | nil => simp
  | cons c0 rest =>
    have hlead := utf8LeadByte_upper_iff c0
    have hloop := prefixLoop_iff (c0 :: rest)
    have hA : 'A'.toNat = 65 := rfl
    have hZ : 'Z'.toNat = 90 := rfl
    have hfirst : (∃ c ∈ (c0 :: rest).head?, ¬ IsUpper c) ↔ ¬ IsUpper c0 := by
      simp only [List.head?_cons, Option.mem_def, Option.some.injEq]
      exact ⟨fun ⟨c, h1, h2⟩ => h1 ▸ h2, fun h => ⟨c0, rfl, h⟩⟩
    rw [hfirst]
    simp only [hA, hZ, false_or, reduceCtorEq]
    by_cases hu : IsUpper c0
    · have h1 : ¬ (65 > utf8LeadByte c0 ∨ utf8LeadByte c0 > 90) := by
        have := hlead.2 hu; omega
      rw [if_neg h1]
      by_cases hl : prefixLoop (c0 :: rest) = true
      · rw [if_pos hl]
        have := hloop.1 hl
        exact ⟨fun _ => rfl, fun h => absurd (Or.inr this) h⟩
      · rw [if_neg hl]
        have hne : ¬ ∃ c ∈ c0 :: rest, ¬ NameChar c := fun h => hl (hloop.2 h)
        refine ⟨fun h => ?_, fun _ => rfl⟩
        rcases h with h | h
        · exact absurd hu h
        · exact absurd h hne
    · have h1 : 65 > utf8LeadByte c0 ∨ utf8LeadByte c0 > 90 := by
        by_contra hcon
        exact hu (hlead.1 (by omega))
      rw [if_pos h1]
      exact ⟨fun _ => rfl, fun h => absurd (Or.inl hu) h⟩

theorem fieldPrefixer_of_fresh (g : Globals)
    (h : g.appliedFieldPrefix = "" ∨ g.appliedFieldPrefix ≠ g.FieldPrefix) :
    (Defaulted g.FieldPrefix → (fieldPrefixer g).1 = "SLOG_") ∧
      (¬ Defaulted g.FieldPrefix → (fieldPrefixer g).1 = g.FieldPrefix ++ "_") := by
  have hn : ¬ (g.appliedFieldPrefix ≠ "" ∧ g.appliedFieldPrefix = g.FieldPrefix) := by
    rintro ⟨h1, h2⟩
    rcases h with h | h
    · exact h1 h
    · exact h h2
  unfold fieldPrefixer
  rw [if_neg hn]
  exact computePrefix_eq g.FieldPrefix

/-- C3. Whenever `fieldPrefixer` recomputes (the cached applied prefix is empty
or differs from the raw `FieldPrefix`), it returns `"SLOG_"` if the raw prefix is
empty, or its first character is not an uppercase ASCII letter, or one of its
characters is outside `[A-Z0-9_]`, and the raw prefix followed by `"_"`
otherwise. -/
theorem fieldPrefixer_recomputes (g : Globals)
    (h : g.appliedFieldPrefix = "" ∨ g.appliedFieldPrefix ≠ g.FieldPrefix) :
    ((g.FieldPrefix = "" ∨ (∃ c ∈ g.FieldPrefix.data.head?, ¬ IsUpper c) ∨
        ∃ c ∈ g.FieldPrefix.data, ¬ NameChar c) → (fieldPrefixer g).1 = "SLOG_") ∧
      (¬ (g.FieldPrefix = "" ∨ (∃ c ∈ g.FieldPrefix.data.head?, ¬ IsUpper c) ∨
        ∃ c ∈ g.FieldPrefix.data, ¬ NameChar c) → (fieldPrefixer g).1 = g.FieldPrefix ++ "_") :=
  fieldPrefixer_of_fresh g h

/-- The witnesses of C3: on first use `"CUSTOM"` resolves to `"CUSTOM_"`, and
`"INVALID-PREFIX"` and `"1INVALID_PREFIX"` resolve to `"SLOG_"`. -/
theorem fieldPrefixer_recomputes_witness :
    (fieldPrefixer { Globals.initial with FieldPrefix := "CUSTOM" }).1 = "CUSTOM_" ∧
    (fieldPrefixer { Globals.initial with FieldPrefix := "INVALID-PREFIX" }).1 = "SLOG_" ∧
    (fieldPrefixer { Globals.initial with FieldPrefix := "1INVALID_PREFIX" }).1 = "SLOG_" :=
  ⟨(fieldPrefixer_recomputes { Globals.initial with FieldPrefix := "CUSTOM" }
      (Or.inl rfl)).2 (by decide),
   (fieldPrefixer_recomputes { Globals.initial with FieldPrefix := "INVALID-PREFIX" }
      (Or.inl rfl)).1 (by decide),
   (fieldPrefixer_recomputes { Globals.initial with FieldPrefix := "1INVALID_PREFIX" }
      (Or.inl rfl)).1 (by decide)⟩

theorem computePrefix_ne_empty (raw : String) : computePrefix raw ≠ "" := by
  by_cases h : Defaulted raw
  · rw [(computePrefix_eq raw).1 h]; decide
  · rw [(computePrefix_eq raw).2 h, Ne, string_eq_empty_iff]
    simp

/-- C4. Prefix resolution is idempotent: from every state of the package
variables, a second call of `fieldPrefixer` right after a first returns the same
string and leaves the package variables, `FieldPrefix` and `appliedFieldPrefix`
among them, exactly as the first call left them. -/
theorem fieldPrefixer_idempotent (g : Globals) :
    (fieldPrefixer (fieldPrefixer g).2).1 = (fieldPrefixer g).1 ∧
      (fieldPrefixer (fieldPrefixer g).2).2 = (fieldPrefixer g).2 ∧
      (fieldPrefixer (fieldPrefixer g).2).2.FieldPrefix = (fieldPrefixer g).2.FieldPrefix ∧
      (fieldPrefixer (fieldPrefixer g).2).2.appliedFieldPrefix =
        (fieldPrefixer g).2.appliedFieldPrefix := by
  have key : (fieldPrefixer (fieldPrefixer g).2) = ((fieldPrefixer g).1, (fieldPrefixer g).2) := by
    by_cases hc : g.appliedFieldPrefix ≠ "" ∧ g.appliedFieldPrefix = g.FieldPrefix
    · have h1 : fieldPrefixer g = (g.appliedFieldPrefix, g) := by
        unfold fieldPrefixer; rw [if_pos hc]
      rw [h1]; exact h1
    · have h1 : fieldPrefixer g = (computePrefix g.FieldPrefix,
          { g with appliedFieldPrefix := computePrefix g.FieldPrefix,
                   FieldPrefix := computePrefix g.FieldPrefix }) := by
        unfold fieldPrefixer; rw [if_neg hc]
      rw [h1]
      unfold fieldPrefixer
      rw [if_pos ⟨computePrefix_ne_empty _, rfl⟩]
  rw [key]
  exact ⟨rfl, rfl, rfl, rfl⟩

/-! ## Maps -/

theorem GoMap.get?_set_self {α : Type} (m : GoMap α) (k : String) (v : α) :
    (m.set k v).get? k = some v := by
  induction m with
  | nil => simp [GoMap.set, GoMap.get?]
  | cons e rest ih =>
    obtain ⟨k', v'⟩ := e
    by_cases h : k' = k
    · simp [GoMap.set, GoMap.get?, h]
    · simp [GoMap.set, GoMap.get?, h, ih]

theorem GoMap.get?_set_ne {α : Type} (m : GoMap α) (k x : String) (v : α) (hx : x ≠ k) :
    (m.set k v).get? x = m.get? x := by
  induction m with
  | nil => simp [GoMap.set, GoMap.get?, Ne.symm hx]
  | cons e rest ih =>
    obtain ⟨k', v'⟩ := e
    by_cases h : k' = k
    · subst h
      simp [GoMap.set, GoMap.get?, Ne.symm hx]
    · by_cases h2 : k' = x
      · subst h2
        simp [GoMap.set, GoMap.get?, h]
      · simp [GoMap.set, GoMap.get?, h, h2, ih]

theorem GoMap.mem_keys_set {α : Type} (m : GoMap α) (k x : String) (v : α) :
    x ∈ (m.set k v).keys ↔ x = k ∨ x ∈ m.keys := by
  induction m with
  | nil => simp [GoMap.set, GoMap.keys]
  | cons e rest ih =>
    obtain ⟨k', v'⟩ := e
    by_cases h : k' = k
    · subst h
      simp [GoMap.set, GoMap.keys]
    · simp only [GoMap.keys] at ih
      simp only [GoMap.set, GoMap.keys, h, if_false, List.map_cons, List.mem_cons, ih]
      tauto

theorem GoMap.mem_keys_iff {α : Type} (m : GoMap α) (x : String) :
    x ∈ m.keys ↔ ∃ v, m.get? x = some v := by
  induction m with
  | nil => simp [GoMap.keys, GoMap.get?]
  | cons e rest ih =>
    obtain ⟨k', v'⟩ := e
    simp only [GoMap.keys] at ih
    by_cases h : k' = x
    · simp [GoMap.keys, GoMap.get?, h]
    · simp [GoMap.keys, GoMap.get?, h, ih, Ne.symm h]

theorem GoMap.mem_keys_of_mem {α : Type} (m : GoMap α) (e : String × α) (h : e ∈ m) :
    e.1 ∈ m.keys := List.mem_map_of_mem Prod.fst h

theorem GoMap.exists_mem_of_mem_keys {α : Type} (m : GoMap α) (x : String) (h : x ∈ m.keys) :
    ∃ v, (x, v) ∈ m := by
  obtain ⟨e, he, rfl⟩ := List.mem_map.1 h
  exact ⟨e.2, he⟩

theorem RangeOrder.mem_visit {α : Type} (ro : RangeOrder) (m : GoMap α) (e : String × α) :
    e ∈ ro.visit m ↔ e ∈ m := (ro.perm m).mem_iff

/-! ## The loops of `attrsToFields` -/

theorem fieldLoop_of_valid (cs : List Char) (field : String) (h : ∀ c ∈ cs, KeyChar c) :
    fieldLoop cs field = some (field ++ String.mk (cs.map folded)) := by
  induction cs generalizing field with
  | nil => simp [fieldLoop]
  | cons c rest ih =>
    have hc : skips c = false := (skips_eq_false_iff c).2 (h c (List.mem_cons_self _ _))
    unfold fieldLoop
    rw [hc, if_neg Bool.false_ne_true, ih _ (fun d hd => h d (List.mem_cons_of_mem _ hd))]
    congr 1
    exact String.ext (by simp)

theorem fieldLoop_of_invalid (cs : List Char) (field : String) (h : ∃ c ∈ cs, ¬ KeyChar c) :
    fieldLoop cs field = none := by
  induction cs generalizing field with
  | nil => obtain ⟨c, hc, _⟩ := h; cases hc
  | cons c rest ih =>
    unfold fieldLoop
    by_cases hc : skips c = true
    · rw [if_pos hc]
    · rw [if_neg hc]
      have hk : KeyChar c := (skips_eq_false_iff c).1 (Bool.not_eq_true _ ▸ hc)
      apply ih
      obtain ⟨d, hd, hnd⟩ := h
      rcases List.mem_cons.1 hd with rfl | hd
      · exact absurd hk hnd
      · exact ⟨d, hd, hnd⟩

theorem fieldLoop_eq_some_iff (cs : List Char) (field : String) :
    fieldLoop cs "" = some field ↔ (∀ c ∈ cs, KeyChar c) ∧ field = String.mk (cs.map folded) := by
  by_cases h : ∀ c ∈ cs, KeyChar c
  · rw [fieldLoop_of_valid cs "" h]
    have : ("" : String) ++ String.mk (cs.map folded) = String.mk (cs.map folded) :=
      String.ext (by simp)
    rw [this]
    constructor
    · intro he; exact ⟨h, (Option.some.inj he).symm⟩
    · rintro ⟨_, rfl⟩; rfl
  · have hex : ∃ c ∈ cs, ¬ KeyChar c := by
      by_contra hcon
      exact h (fun c hc => by_contra fun hk => hcon ⟨c, hc, hk⟩)
    rw [fieldLoop_of_invalid cs "" hex]
    constructor
    · intro he; cases he
    · rintro ⟨hv, _⟩; exact absurd hv h

theorem fieldsLoop_filter (pfx k : String) (hk : fieldLoop k.data "" = none)
    (visited : List (String × Scalar)) (fields : GoMap String) :
    fieldsLoop pfx visited fields =
      fieldsLoop pfx (visited.filter (fun e => decide (e.1 ≠ k))) fields := by
  induction visited generalizing fields with
  | nil => rfl
  | cons e rest ih =>
    obtain ⟨k', v'⟩ := e
    by_cases h : k' = k
    · subst h
      simp only [fieldsLoop, hk, List.filter, ne_eq, not_true_eq_false, decide_False]
      exact ih fields
    · simp only [List.filter, ne_eq, h, not_false_eq_true, decide_True, fieldsLoop]
      cases fieldLoop k'.data "" with
      | none => exact ih fields
      | some field => exact ih _

theorem fieldsLoop_mem_keys (pfx : String) (visited : List (String × Scalar))
    (fields : GoMap String) (x : String) :
    x ∈ (fieldsLoop pfx visited fields).keys ↔
      x ∈ fields.keys ∨ ∃ e ∈ visited, ∃ field, fieldLoop e.1.data "" = some field ∧
        x = pfx ++ field := by
  induction visited generalizing fields with
  | nil => simp [fieldsLoop]
  | cons e rest ih =>
    obtain ⟨k', v'⟩ := e
    simp only [fieldsLoop, List.mem_cons, exists_eq_or_imp]
    cases hf : fieldLoop k'.data "" with
    | none =>
      simp only [ih, reduceCtorEq, false_and, exists_false, false_or]
    | some field =>
      simp only [ih, GoMap.mem_keys_set, Option.some.injEq, exists_eq_left']
      tauto

theorem folded_of_lower (c : Char) (h : IsLower c) :
    IsUpper (folded c) ∧ (folded c).toNat + 32 = c.toNat := by
  have ha : 'a'.toNat = 97 := rfl
  have hz : 'z'.toNat = 122 := rfl
  have hA : 'A'.toNat = 65 := rfl
  have h' := (isLower_iff c).1 h
  have hv : (folded c).toNat = c.toNat - 32 := by
    unfold folded
    rw [if_pos (by rw [ha, hz]; exact h'), ha, hA]
    exact toNat_ofNat_of_lt _ (by omega)
  rw [isUpper_iff, hv]
  omega

theorem folded_of_not_lower (c : Char) (h : ¬ IsLower c) : folded c = c := by
  have ha : 'a'.toNat = 97 := rfl
  have hz : 'z'.toNat = 122 := rfl
  unfold folded
  rw [if_neg (by rw [ha, hz]; exact fun h' => h ((isLower_iff c).2 h'))]

/-- C1. A flattened key with a code point outside `[A-Za-z0-9_]` yields no
field, under any prefix and whatever its value: the fields are those the loop
builds with the key's entry left out, and every field emitted is the prefix
followed by the folded form of another flattened key, one made of
`[A-Za-z0-9_]` only. -/
theorem attrsToFields_drops_invalid_key {Attr Record : Type} (lib : SlogCommon Attr Record)
    (ro : RangeOrder) (pfx : String) (attrs : List Attr) (k : String)
    (h : ∃ c ∈ k.data, ¬ KeyChar c) :
    attrsToFields lib ro pfx attrs =
        fieldsLoop pfx ((ro.visit (flattenToMap (lib.AttrsToMap attrs))).filter
          (fun e => decide (e.1 ≠ k))) [] ∧
      ∀ x ∈ (attrsToFields lib ro pfx attrs).keys,
        ∃ k' ∈ (flattenToMap (lib.AttrsToMap attrs)).keys,
          k' ≠ k ∧ (∀ c ∈ k'.data, KeyChar c) ∧ x = pfx ++ String.mk (k'.data.map folded) := by
  have hk : fieldLoop k.data "" = none := fieldLoop_of_invalid k.data "" h
  refine ⟨fieldsLoop_filter pfx k hk _ _, ?_⟩
  intro x hx
  unfold attrsToFields at hx
  rcases (fieldsLoop_mem_keys pfx _ [] x).1 hx with hx | ⟨e, he, field, hf, rfl⟩
  · cases hx
  · have hmem : e ∈ flattenToMap (lib.AttrsToMap attrs) := (ro.mem_visit _ e).1 he
    obtain ⟨hv, rfl⟩ := (fieldLoop_eq_some_iff e.1.data field).1 hf
    refine ⟨e.1, GoMap.mem_keys_of_mem _ e hmem, ?_, hv, rfl⟩
    rintro rfl
    rw [hk] at hf
    cases hf

/-- The witness of C1: the key `%invalid_field%` of the test yields no field. -/
theorem attrsToFields_drops_invalid_key_witness :
    attrsToFields plainLib RangeOrder.inOrder "SLOG_"
        [("uuid", .leaf (.str "X")), ("%invalid_field%", .leaf (.str "value"))] =
      [("SLOG_UUID", "X")] :=
  ((attrsToFields_drops_invalid_key plainLib RangeOrder.inOrder "SLOG_"
      [("uuid", .leaf (.str "X")), ("%invalid_field%", .leaf (.str "value"))]
      "%invalid_field%" (by decide)).1).trans (by decide)

/-- C2. A flattened key made of `[A-Za-z0-9_]` only is kept, under every prefix:
the fields hold the prefix followed by a name of the key's length that has, at
each position, the uppercase form of the key's lowercase letter there, or the
key's own character when that is a digit, an underscore or an uppercase
letter. -/
theorem attrsToFields_keeps_valid_key {Attr Record : Type} (lib : SlogCommon Attr Record)
    (ro : RangeOrder) (pfx : String) (attrs : List Attr) (k : String)
    (hk : k ∈ (flattenToMap (lib.AttrsToMap attrs)).keys) (hv : ∀ c ∈ k.data, KeyChar c) :
    ∃ field : String, pfx ++ field ∈ (attrsToFields lib ro pfx attrs).keys ∧
      field.data.length = k.data.length ∧
      ∀ (i : Nat) (c d : Char), k.data[i]? = some c → field.data[i]? = some d →
        (IsLower c → IsUpper d ∧ d.toNat + 32 = c.toNat) ∧ (¬ IsLower c → d = c) := by
  refine ⟨String.mk (k.data.map folded), ?_, by simp, ?_⟩
  · obtain ⟨v, hmem⟩ := GoMap.exists_mem_of_mem_keys _ k hk
    unfold attrsToFields
    refine (fieldsLoop_mem_keys pfx _ [] _).2 (Or.inr ⟨(k, v), (ro.mem_visit _ _).2 hmem, _, ?_, rfl⟩)
    exact (fieldLoop_eq_some_iff k.data _).2 ⟨hv, rfl⟩
  · intro i c d hc hd
    simp only [List.getElem?_map, hc, Option.map_some', Option.some.injEq] at hd
    subst hd
    exact ⟨folded_of_lower c, folded_of_not_lower c⟩

/-- The witness of C2: the key `uuid` of the tests is kept as `SLOG_UUID`. -/
theorem attrsToFields_keeps_valid_key_witness :
    ∃ field : String, "SLOG_" ++ field ∈ (attrsToFields plainLib RangeOrder.inOrder "SLOG_"
        [("uuid", .leaf (.str "X"))]).keys ∧
      field.data.length = "uuid".data.length ∧
      ∀ (i : Nat) (c d : Char), "uuid".data[i]? = some c → field.data[i]? = some d →
        (IsLower c → IsUpper d ∧ d.toNat + 32 = c.toNat) ∧ (¬ IsLower c → d = c) :=
  attrsToFields_keeps_valid_key plainLib RangeOrder.inOrder "SLOG_"
    [("uuid", .leaf (.str "X"))] "uuid" (by decide) (by decide)

/-! ## `maps.Copy` -/

theorem mapsCopyLoop_mem_keys {α : Type} (dst src : GoMap α) (x : String) :
    x ∈ (mapsCopyLoop dst src).keys ↔ x ∈ dst.keys ∨ x ∈ src.keys := by
  induction src generalizing dst with
  | nil => simp [mapsCopyLoop, GoMap.keys]
  | cons e rest ih =>
    obtain ⟨k, v⟩ := e
    rw [mapsCopyLoop, ih, GoMap.mem_keys_set]
    simp only [GoMap.keys, List.map_cons, List.mem_cons]
    tauto

theorem mapsCopyLoop_get?_of_not_mem {α : Type} (dst src : GoMap α) (x : String)
    (h : x ∉ src.keys) : (mapsCopyLoop dst src).get? x = dst.get? x := by
  induction src generalizing dst with
  | nil => rfl
  | cons e rest ih =>
    obtain ⟨k, v⟩ := e
    simp only [GoMap.keys, List.map_cons, List.mem_cons, not_or] at h
    rw [mapsCopyLoop, ih _ h.2, GoMap.get?_set_ne _ _ _ _ h.1]

theorem mapsCopyLoop_get?_of_mem {α : Type} (dst src : GoMap α) (x : String) (v : α)
    (hmem : (x, v) ∈ src) (hone : ∀ e ∈ src, e.1 = x → e.2 = v) :
    (mapsCopyLoop dst src).get? x = some v := by
  induction src generalizing dst with
  | nil => cases hmem
  | cons e rest ih =>
    obtain ⟨k, w⟩ := e
    rw [mapsCopyLoop]
    by_cases hr : x ∈ GoMap.keys rest
    · obtain ⟨v', hv'⟩ := GoMap.exists_mem_of_mem_keys rest x hr
      have : v' = v := hone (x, v') (List.mem_cons_of_mem _ hv') rfl
      subst this
      exact ih _ hv' (fun e he => hone e (List.mem_cons_of_mem _ he))
    · rw [mapsCopyLoop_get?_of_not_mem _ _ _ hr]
      rcases List.mem_cons.1 hmem with heq | hin
      · cases heq
        exact GoMap.get?_set_self _ _ _
      · exact absurd (GoMap.mem_keys_of_mem rest (x, v) hin) hr

theorem GoMap.mem_of_get? {α : Type} (m : GoMap α) (x : String) (v : α)
    (h : m.get? x = some v) : (x, v) ∈ m := by
  induction m with
  | nil => cases h
  | cons e rest ih =>
    obtain ⟨k, w⟩ := e
    by_cases hk : k = x
    · subst hk
      simp only [GoMap.get?, if_true, Option.some.injEq] at h
      subst h
      exact List.mem_cons_self _ _
    · simp only [GoMap.get?, hk, if_false] at h
      exact List.mem_cons_of_mem _ (ih h)

theorem GoMap.nodup_keys_set {α : Type} (m : GoMap α) (k : String) (v : α)
    (h : m.keys.Nodup) : (m.set k v).keys.Nodup := by
  induction m with
  | nil => simp [GoMap.set, GoMap.keys]
  | cons e rest ih =>
    obtain ⟨k', v'⟩ := e
    simp only [GoMap.keys, List.map_cons, List.nodup_cons] at h
    by_cases hk : k' = k
    · subst hk
      simp only [GoMap.set, if_true, GoMap.keys, List.map_cons, List.nodup_cons]
      exact h
    · simp only [GoMap.set, hk, if_false, GoMap.keys, List.map_cons, List.nodup_cons]
      refine ⟨?_, ih h.2⟩
      intro hmem
      rcases (GoMap.mem_keys_set rest k k' v).1 hmem with h1 | h1
      · exact hk h1
      · exact h.1 h1

theorem GoMap.get?_of_mem_nodup {α : Type} (m : GoMap α) (x : String) (v : α)
    (h : m.keys.Nodup) (hmem : (x, v) ∈ m) : m.get? x = some v := by
  induction m with
  | nil => cases hmem
  | cons e rest ih =>
    obtain ⟨k, w⟩ := e
    simp only [GoMap.keys, List.map_cons, List.nodup_cons] at h
    rcases List.mem_cons.1 hmem with heq | hin
    · cases heq
      simp [GoMap.get?]
    · have hne : k ≠ x := fun hk => h.1 (hk ▸ GoMap.mem_keys_of_mem rest (x, v) hin)
      simp only [GoMap.get?, hne, if_false]
      exact ih h.2 hin

theorem fieldsLoop_nodup_keys (pfx : String) (visited : List (String × Scalar))
    (fields : GoMap String) (h : fields.keys.Nodup) :
    (fieldsLoop pfx visited fields).keys.Nodup := by
  induction visited generalizing fields with
  | nil => exact h
  | cons e rest ih =>
    obtain ⟨k, v⟩ := e
    simp only [fieldsLoop]
    cases fieldLoop k.data "" with
    | none => exact ih _ h
    | some field => exact ih _ (GoMap.nodup_keys_set _ _ _ h)

theorem mapsCopy_mem_keys {α : Type} (ro : RangeOrder) (dst src : GoMap α) (x : String) :
    x ∈ (mapsCopy ro dst src).keys ↔ x ∈ dst.keys ∨ x ∈ src.keys := by
  unfold mapsCopy
  rw [mapsCopyLoop_mem_keys]
  have : x ∈ GoMap.keys (ro.visit src) ↔ x ∈ GoMap.keys src :=
    ((ro.perm src).map Prod.fst).mem_iff
  rw [this]

theorem mapsCopy_get?_of_not_mem {α : Type} (ro : RangeOrder) (dst src : GoMap α)
    (x : String) (h : x ∉ src.keys) : (mapsCopy ro dst src).get? x = dst.get? x := by
  unfold mapsCopy
  apply mapsCopyLoop_get?_of_not_mem
  intro hx
  exact h (((ro.perm src).map Prod.fst).mem_iff.1 hx)

theorem mapsCopy_get?_of_get? {α : Type} (ro : RangeOrder) (dst src : GoMap α)
    (x : String) (v : α) (hnd : src.keys.Nodup) (h : src.get? x = some v) :
    (mapsCopy ro dst src).get? x = some v := by
  unfold mapsCopy
  apply mapsCopyLoop_get?_of_mem
  · exact (ro.mem_visit src _).2 (GoMap.mem_of_get? src x v h)
  · intro e he hx
    have hmem : e ∈ src := (ro.mem_visit src e).1 he
    have := GoMap.get?_of_mem_nodup src e.1 e.2 hnd hmem
    rw [hx, h] at this
    exact (Option.some.inj this).symm

/-! ## The priority -/

/-- C7. For every level table and every record level, `DefaultConverter` returns
the priority that the table holds for the canonical name of the level when the
name is a key of the table, and the debug priority, 7, when it is not. -/
theorem DefaultConverter_prio_lookup {Attr Record : Type} (lib : SlogCommon Attr Record)
    (view : RecordView Record) (ro : RangeOrder) (name version : String) (g : Globals)
    (addSource : Bool) (replaceAttr : Option (List String → Attr → Attr))
    (loggerAttr : List Attr) (groups : List String) (record : Record) :
    (∀ p, g.LogLevelToPriority.get? (levelString (view.Level record)) = some p →
        (DefaultConverter lib view ro name version g addSource replaceAttr loggerAttr groups
          record).prio = p) ∧
      (levelString (view.Level record) ∉ g.LogLevelToPriority.keys →
        (DefaultConverter lib view ro name version g addSource replaceAttr loggerAttr groups
          record).prio = 7) := by
  constructor
  · intro p hp
    simp only [DefaultConverter, hp]
  · intro hn
    have hnone : g.LogLevelToPriority.get? (levelString (view.Level record)) = none := by
      cases hget : g.LogLevelToPriority.get? (levelString (view.Level record)) with
      | none => rfl
      | some p => exact absurd ((GoMap.mem_keys_iff _ _).2 ⟨p, hget⟩) hn
    simp only [DefaultConverter, hnone]
    rfl

/-- The witnesses of C7: with an empty table a record at level INFO gets
priority 7, and with the table `{"DEBUG-4": notice}` a record at level -8 gets
priority 5. -/
theorem DefaultConverter_prio_lookup_witness :
    (DefaultConverter plainLib plainView RangeOrder.inOrder "slog-journal" "v0"
        { Globals.initial with LogLevelToPriority := [] } false none [] []
        (uuidRecord LevelInfo "M" "X")).prio = 7 ∧
    (DefaultConverter plainLib plainView RangeOrder.inOrder "slog-journal" "v0"
        { Globals.initial with LogLevelToPriority := [("DEBUG-4", PriNotice)] } false none [] []
        (uuidRecord (-8) "M" "X")).prio = 5 :=
  ⟨(DefaultConverter_prio_lookup plainLib plainView RangeOrder.inOrder "slog-journal" "v0"
      { Globals.initial with LogLevelToPriority := [] } false none [] []
      (uuidRecord LevelInfo "M" "X")).2 (by decide),
   (DefaultConverter_prio_lookup plainLib plainView RangeOrder.inOrder "slog-journal" "v0"
      { Globals.initial with LogLevelToPriority := [("DEBUG-4", PriNotice)] } false none [] []
      (uuidRecord (-8) "M" "X")).1 5 (by decide)⟩

/-- C8. With the default level table, a record at level Debug (-4), Info (0),
Warn (4) or Error (8) gets priority 7, 6, 4 or 3 respectively, whatever its
message and attributes. -/
theorem DefaultConverter_prio_default {Attr Record : Type} (lib : SlogCommon Attr Record)
    (view : RecordView Record) (ro : RangeOrder) (name version : String) (g : Globals)
    (addSource : Bool) (replaceAttr : Option (List String → Attr → Attr))
    (loggerAttr : List Attr) (groups : List String) (record : Record)
    (htable : g.LogLevelToPriority = defaultLogLevelToPriority) :
    (view.Level record = -4 →
        (DefaultConverter lib view ro name version g addSource replaceAttr loggerAttr groups
          record).prio = 7) ∧
      (view.Level record = 0 →
        (DefaultConverter lib view ro name version g addSource replaceAttr loggerAttr groups
          record).prio = 6) ∧
      (view.Level record = 4 →
        (DefaultConverter lib view ro name version g addSource replaceAttr loggerAttr groups
          record).prio = 4) ∧
      (view.Level record = 8 →
        (DefaultConverter lib view ro name version g addSource replaceAttr loggerAttr groups
          record).prio = 3) := by
  refine ⟨fun h => ?_, fun h => ?_, fun h => ?_, fun h => ?_⟩ <;>
    · simp only [DefaultConverter, htable, h]
      rfl

/-- The witness of C8: the four levels on the package's initial variables. -/
theorem DefaultConverter_prio_default_witness :
    (DefaultConverter plainLib plainView RangeOrder.inOrder "slog-journal" "v0"
        Globals.initial false none [] [] (uuidRecord LevelDebug "M" "X")).prio = 7 ∧
    (DefaultConverter plainLib plainView RangeOrder.inOrder "slog-journal" "v0"
        Globals.initial false none [] [] (uuidRecord LevelInfo "M" "X")).prio = 6 ∧
    (DefaultConverter plainLib plainView RangeOrder.inOrder "slog-journal" "v0"
        Globals.initial false none [] [] (uuidRecord LevelWarn "M" "X")).prio = 4 ∧
    (DefaultConverter plainLib plainView RangeOrder.inOrder "slog-journal" "v0"
        Globals.initial false none [] [] (uuidRecord LevelError "M" "X")).prio = 3 :=
  ⟨(DefaultConverter_prio_default plainLib plainView RangeOrder.inOrder "slog-journal" "v0"
      Globals.initial false none [] [] (uuidRecord LevelDebug "M" "X") rfl).1 rfl,
   (DefaultConverter_prio_default plainLib plainView RangeOrder.inOrder "slog-journal" "v0"
      Globals.initial false none [] [] (uuidRecord LevelInfo "M" "X") rfl).2.1 rfl,
   (DefaultConverter_prio_default plainLib plainView RangeOrder.inOrder "slog-journal" "v0"
      Globals.initial false none [] [] (uuidRecord LevelWarn "M" "X") rfl).2.2.1 rfl,
   (DefaultConverter_prio_default plainLib plainView RangeOrder.inOrder "slog-journal" "v0"
      Globals.initial false none [] [] (uuidRecord LevelError "M" "X") rfl).2.2.2 rfl⟩

/-! ## The identity field -/

/-- C9. For every state of the package variables, the prefix among them, and
every input, the fields that `DefaultConverter` returns contain the key
`SLOG_LOGGER`. -/
theorem DefaultConverter_has_logger {Attr Record : Type} (lib : SlogCommon Attr Record)
    (view : RecordView Record) (ro : RangeOrder) (name version : String) (g : Globals)
    (addSource : Bool) (replaceAttr : Option (List String → Attr → Attr))
    (loggerAttr : List Attr) (groups : List String) (record : Record) :
    "SLOG_LOGGER" ∈ (DefaultConverter lib view ro name version g addSource replaceAttr
      loggerAttr groups record).fields.keys := by
  simp only [DefaultConverter]
  rw [mapsCopy_mem_keys]
  left
  simp [GoMap.keys]

/-! ## The alphabet of the field names -/

theorem computePrefix_wellFormed (raw : String) : WellFormedPrefix (computePrefix raw) := by
  by_cases h : Defaulted raw
  · rw [(computePrefix_eq raw).1 h]; decide
  · rw [(computePrefix_eq raw).2 h]
    have h1 : raw ≠ "" := fun he => h (Or.inl he)
    have h2 : ¬ ∃ c ∈ raw.data.head?, ¬ IsUpper c := fun he => h (Or.inr (Or.inl he))
    have h3 : ¬ ∃ c ∈ raw.data, ¬ NameChar c := fun he => h (Or.inr (Or.inr he))
    refine ⟨?_, ?_, ?_⟩
    · rw [Ne, string_eq_empty_iff]; simp
    · cases hd : raw.data with
      | nil => exact absurd ((string_eq_empty_iff raw).2 hd) h1
      | cons c0 rest =>
        refine ⟨c0, by simp [hd], ?_⟩
        by_contra hc
        exact h2 ⟨c0, by simp [hd], hc⟩
    · intro c hc
      simp only [String.data_append, List.mem_append] at hc
      rcases hc with hc | hc
      · by_contra hn
        exact h3 ⟨c, hc, hn⟩
      · have : c = '_' := by simpa using hc
        exact Or.inr (Or.inr this)

theorem reachable_applied (g : Globals) (h : Reachable g) :
    g.appliedFieldPrefix = "" ∨ WellFormedPrefix g.appliedFieldPrefix := by
  induction h with
  | start => exact Or.inl rfl
  | assign g g' _ hkeep ih => rw [hkeep]; exact ih
  | resolve g _ ih =>
    unfold fieldPrefixer
    by_cases hc : g.appliedFieldPrefix ≠ "" ∧ g.appliedFieldPrefix = g.FieldPrefix
    · rw [if_pos hc]; exact ih
    · rw [if_neg hc]; exact Or.inr (computePrefix_wellFormed _)

theorem fieldPrefixer_wellFormed (g : Globals) (h : Reachable g) :
    WellFormedPrefix (fieldPrefixer g).1 := by
  unfold fieldPrefixer
  by_cases hc : g.appliedFieldPrefix ≠ "" ∧ g.appliedFieldPrefix = g.FieldPrefix
  · rw [if_pos hc]
    rcases reachable_applied g h with h0 | hw
    · exact absurd h0 hc.1
    · exact hw
  · rw [if_neg hc]; exact computePrefix_wellFormed _

theorem folded_nameChar (c : Char) (h : KeyChar c) : NameChar (folded c) := by
  by_cases hl : IsLower c
  · exact Or.inl (folded_of_lower c hl).1
  · rw [folded_of_not_lower c hl]
    rcases h with h | h | h | h
    · exact Or.inl h
    · exact absurd h hl
    · exact Or.inr (Or.inl h)
    · exact Or.inr (Or.inr h)

theorem DefaultConverter_key_cases {Attr Record : Type} (lib : SlogCommon Attr Record)
    (view : RecordView Record) (ro : RangeOrder) (name version : String) (g : Globals)
    (addSource : Bool) (replaceAttr : Option (List String → Attr → Attr))
    (loggerAttr : List Attr) (groups : List String) (record : Record) (x : String)
    (hx : x ∈ (DefaultConverter lib view ro name version g addSource replaceAttr loggerAttr
      groups record).fields.keys) :
    x = "SLOG_LOGGER" ∨
      ∃ k ∈ (flattenToMap (lib.AttrsToMap (aggregate lib g addSource replaceAttr loggerAttr
          groups record))).keys,
        (∀ c ∈ k.data, KeyChar c) ∧
          x = (fieldPrefixer g).1 ++ String.mk (k.data.map folded) := by
  simp only [DefaultConverter] at hx
  rcases (mapsCopy_mem_keys ro _ _ x).1 hx with h | h
  · left
    simpa [GoMap.keys] using h
  · right
    unfold attrsToFields at h
    rcases (fieldsLoop_mem_keys _ _ [] x).1 h with h | ⟨e, he, field, hf, rfl⟩
    · cases h
    · obtain ⟨hv, rfl⟩ := (fieldLoop_eq_some_iff e.1.data field).1 hf
      exact ⟨e.1, GoMap.mem_keys_of_mem _ e ((ro.mem_visit _ e).1 he), hv, rfl⟩

/-- C5. In every reachable state of the package variables, whatever the raw
`FieldPrefix`, the resolved prefix is not empty, begins with an uppercase letter
and is made of `[A-Z0-9_]` only, and for every input each key of the fields
that `DefaultConverter` returns is not empty and is made of `[A-Z0-9_]` only. -/
theorem DefaultConverter_keys_wellFormed {Attr Record : Type} (lib : SlogCommon Attr Record)
    (view : RecordView Record) (ro : RangeOrder) (name version : String) (g : Globals)
    (addSource : Bool) (replaceAttr : Option (List String → Attr → Attr))
    (loggerAttr : List Attr) (groups : List String) (record : Record)
    (hg : Reachable g) :
    WellFormedPrefix (fieldPrefixer g).1 ∧
      ∀ x ∈ (DefaultConverter lib view ro name version g addSource replaceAttr loggerAttr
          groups record).fields.keys,
        x ≠ "" ∧ ∀ c ∈ x.data, NameChar c := by
  have hw := fieldPrefixer_wellFormed g hg
  refine ⟨hw, ?_⟩
  intro x hx
  rcases DefaultConverter_key_cases lib view ro name version g addSource replaceAttr
    loggerAttr groups record x hx with rfl | ⟨k, _, hv, rfl⟩
  · decide
  · obtain ⟨hne, _, hall⟩ := hw
    constructor
    · intro he
      apply hne
      rw [string_eq_empty_iff] at he ⊢
      simp only [String.data_append, List.append_eq_nil] at he
      exact he.1
    · intro c hc
      simp only [String.data_append, List.mem_append, List.mem_map] at hc
      rcases hc with hc | ⟨d, hd, rfl⟩
      · exact hall c hc
      · exact folded_nameChar d (hv d hd)

/-- The witness of C5: the invalid raw prefix `INVALID-PREFIX`, assigned after a
first resolution with the prefix unset. -/
theorem DefaultConverter_keys_wellFormed_witness :
    WellFormedPrefix (fieldPrefixer
        { (fieldPrefixer Globals.initial).2 with FieldPrefix := "INVALID-PREFIX" }).1 ∧
      ∀ x ∈ (DefaultConverter plainLib plainView RangeOrder.inOrder "slog-journal" "v0"
          { (fieldPrefixer Globals.initial).2 with FieldPrefix := "INVALID-PREFIX" }
          false none [] [] (uuidRecord LevelInfo "M" "X")).fields.keys,
        x ≠ "" ∧ ∀ c ∈ x.data, NameChar c :=
  DefaultConverter_keys_wellFormed plainLib plainView RangeOrder.inOrder "slog-journal" "v0"
    { (fieldPrefixer Globals.initial).2 with FieldPrefix := "INVALID-PREFIX" }
    false none [] [] (uuidRecord LevelInfo "M" "X")
    (Reachable.assign _ _ (Reachable.resolve _ Reachable.start) rfl)

/-! ## The value of a field -/

theorem fieldsLoop_get?_of_no_source (pfx : String) (visited : List (String × Scalar))
    (fields : GoMap String) (x : String)
    (h : ∀ e ∈ visited, fieldName pfx e.1 ≠ some x) :
    (fieldsLoop pfx visited fields).get? x = fields.get? x := by
  induction visited generalizing fields with
  | nil => rfl
  | cons e rest ih =>
    obtain ⟨k, v⟩ := e
    have hrest : ∀ e ∈ rest, fieldName pfx e.1 ≠ some x :=
      fun e he => h e (List.mem_cons_of_mem _ he)
    have hk := h (k, v) (List.mem_cons_self _ _)
    simp only [fieldsLoop]
    cases hf : fieldLoop k.data "" with
    | none => exact ih _ hrest
    | some field =>
      simp only [fieldName, hf, Option.map_some', ne_eq, Option.some.injEq] at hk
      simp only []
      rw [ih _ hrest, GoMap.get?_set_ne _ _ _ _ (Ne.symm hk)]

theorem fieldsLoop_get?_of_source (pfx : String) (visited : List (String × Scalar))
    (fields : GoMap String) (x : String)
    (h : ∃ e ∈ visited, fieldName pfx e.1 = some x) :
    ∃ e ∈ visited, fieldName pfx e.1 = some x ∧
      (fieldsLoop pfx visited fields).get? x = some (sprintf e.2) := by
  induction visited generalizing fields with
  | nil => obtain ⟨e, he, _⟩ := h; cases he
  | cons e rest ih =>
    obtain ⟨k, v⟩ := e
    by_cases hr : ∃ e ∈ rest, fieldName pfx e.1 = some x
    · have step : ∀ fields', ∃ e ∈ (k, v) :: rest, fieldName pfx e.1 = some x ∧
          (fieldsLoop pfx rest fields').get? x = some (sprintf e.2) := by
        intro fields'
        obtain ⟨e, he, hn, hg⟩ := ih fields' hr
        exact ⟨e, List.mem_cons_of_mem _ he, hn, hg⟩
      simp only [fieldsLoop]
      cases fieldLoop k.data "" with
      | none => exact step _
      | some field => exact step _
    · have hno : ∀ e ∈ rest, fieldName pfx e.1 ≠ some x :=
        fun e he hn => hr ⟨e, he, hn⟩
      obtain ⟨e, he, hn⟩ := h
      rcases List.mem_cons.1 he with rfl | he
      · refine ⟨_, List.mem_cons_self _ _, hn, ?_⟩
        simp only [fieldsLoop]
        cases hf : fieldLoop k.data "" with
        | none => simp [fieldName, hf] at hn
        | some field =>
          simp only [fieldName, hf, Option.map_some', Option.some.injEq] at hn
          simp only []
          rw [fieldsLoop_get?_of_no_source pfx rest _ x hno, hn]
          exact GoMap.get?_set_self _ _ _
      · exact absurd hn (hno e he)

theorem attrsToFields_nodup_keys {Attr Record : Type} (lib : SlogCommon Attr Record)
    (ro : RangeOrder) (pfx : String) (attrs : List Attr) :
    (attrsToFields lib ro pfx attrs).keys.Nodup :=
  fieldsLoop_nodup_keys pfx _ [] List.nodup_nil

theorem attrsToFields_not_mem_keys {Attr Record : Type} (lib : SlogCommon Attr Record)
    (ro : RangeOrder) (pfx : String) (attrs : List Attr) (x : String)
    (h : ∀ k ∈ (flattenToMap (lib.AttrsToMap attrs)).keys, fieldName pfx k ≠ some x) :
    x ∉ (attrsToFields lib ro pfx attrs).keys := by
  intro hx
  unfold attrsToFields at hx
  rcases (fieldsLoop_mem_keys pfx _ [] x).1 hx with hx | ⟨e, he, field, hf, rfl⟩
  · cases hx
  · apply h e.1 (GoMap.mem_keys_of_mem _ e ((ro.mem_visit _ e).1 he))
    simp [fieldName, hf]

/-- C10, as amended. The identity field is neither sanitised nor dropped, and it
holds the `<name>:<version>` string of the adapter for every record and
attribute set in which no flattened key is given the name `SLOG_LOGGER`; when
some flattened key is given that name, the field holds the rendered value of
such a key instead. -/
theorem DefaultConverter_logger_value {Attr Record : Type} (lib : SlogCommon Attr Record)
    (view : RecordView Record) (ro : RangeOrder) (name version : String) (g : Globals)
    (addSource : Bool) (replaceAttr : Option (List String → Attr → Attr))
    (loggerAttr : List Attr) (groups : List String) (record : Record) :
    ((∀ k ∈ (flattenToMap (lib.AttrsToMap (aggregate lib g addSource replaceAttr loggerAttr
          groups record))).keys, fieldName (fieldPrefixer g).1 k ≠ some "SLOG_LOGGER") →
        (DefaultConverter lib view ro name version g addSource replaceAttr loggerAttr groups
          record).fields.get? "SLOG_LOGGER" = some (name ++ ":" ++ version)) ∧
      ((∃ k ∈ (flattenToMap (lib.AttrsToMap (aggregate lib g addSource replaceAttr loggerAttr
          groups record))).keys, fieldName (fieldPrefixer g).1 k = some "SLOG_LOGGER") →
        ∃ e ∈ flattenToMap (lib.AttrsToMap (aggregate lib g addSource replaceAttr loggerAttr
            groups record)),
          fieldName (fieldPrefixer g).1 e.1 = some "SLOG_LOGGER" ∧
          (DefaultConverter lib view ro name version g addSource replaceAttr loggerAttr groups
            record).fields.get? "SLOG_LOGGER" = some (sprintf e.2)) := by
  constructor
  · intro h
    simp only [DefaultConverter]
    rw [mapsCopy_get?_of_not_mem ro _ _ _ (attrsToFields_not_mem_keys lib ro _ _ _ h)]
    simp [GoMap.get?]
  · rintro ⟨k, hk, hn⟩
    obtain ⟨v, hv⟩ := GoMap.exists_mem_of_mem_keys _ k hk
    obtain ⟨e, he, hne, hget⟩ := fieldsLoop_get?_of_source (fieldPrefixer g).1
      (ro.visit (flattenToMap (lib.AttrsToMap (aggregate lib g addSource replaceAttr
        loggerAttr groups record)))) [] "SLOG_LOGGER" ⟨(k, v), (ro.mem_visit _ _).2 hv, hn⟩
    refine ⟨e, (ro.mem_visit _ e).1 he, hne, ?_⟩
    simp only [DefaultConverter]
    exact mapsCopy_get?_of_get? ro _ _ _ _ (attrsToFields_nodup_keys lib ro _ _) hget

/-- The witness of the amended C10: the record of the tests, whose only
attribute is `uuid`. -/
theorem DefaultConverter_logger_value_witness :
    (DefaultConverter plainLib plainView RangeOrder.inOrder "slog-journal" "v0"
      Globals.initial false none [] [] (uuidRecord LevelInfo "M" "X")).fields.get?
        "SLOG_LOGGER" = some ("slog-journal" ++ ":" ++ "v0") :=
  (DefaultConverter_logger_value plainLib plainView RangeOrder.inOrder "slog-journal" "v0"
    Globals.initial false none [] [] (uuidRecord LevelInfo "M" "X")).1 (by decide)

/-- C10 fails as stated: an attribute `logger` logged with the default prefix is
given the name `SLOG_LOGGER`, and its value replaces the `<name>:<version>`
string of the identity field. -/
theorem DefaultConverter_logger_replaced :
    (DefaultConverter plainLib plainView RangeOrder.inOrder "slog-journal" "v0"
      Globals.initial false none [] []
      (plainRecord LevelInfo "M" [("logger", .leaf (.str "X"))])).fields.get? "SLOG_LOGGER" =
        some "X" ∧
    (DefaultConverter plainLib plainView RangeOrder.inOrder "slog-journal" "v0"
      Globals.initial false none [] []
      (plainRecord LevelInfo "M" [("logger", .leaf (.str "X"))])).fields.get? "SLOG_LOGGER" ≠
        some ("slog-journal" ++ ":" ++ "v0") := by
  decide

/-! ## The prefix of the attribute fields -/

theorem string_append_cancel_left (p a b : String) (h : p ++ a = p ++ b) : a = b := by
  have hd := congrArg String.data h
  simp only [String.data_append] at hd
  exact String.ext (List.append_cancel_left hd)

theorem not_defaulted_of_wellFormed (p : String) (h : WellFormedPrefix p) : ¬ Defaulted p := by
  obtain ⟨hne, ⟨c, hc, hu⟩, hall⟩ := h
  rintro (h1 | ⟨d, hd, hnu⟩ | ⟨d, hd, hn⟩)
  · exact hne h1
  · have : d = c := by
      rw [Option.mem_def] at hc hd
      rw [hc] at hd
      exact (Option.some.inj hd).symm
    subst this
    exact hnu hu
  · exact hn (hall d hd)

theorem prefix_of_slog_uuid (p field : String) (h : p ++ "_" ++ field = "SLOG_UUID") :
    p = "SLOG" := by
  have hd := congrArg String.data h
  simp only [String.data_append] at hd
  apply String.ext
  show p.data = ['S', 'L', 'O', 'G']
  generalize p.data = l at hd
  generalize field.data = r at hd
  rcases l with _ | ⟨a, _ | ⟨b, _ | ⟨c, _ | ⟨d, _ | ⟨e, _ | ⟨f, _ | ⟨g, _ | ⟨i, _ | ⟨j, l⟩⟩⟩⟩⟩⟩⟩⟩⟩ <;>
    simp at hd
  simp [hd]

/-- C6, as amended. For every valid raw prefix `P` that `fieldPrefixer` resolves
afresh (the cached applied prefix is empty or differs from `P`), every field that
`DefaultConverter` returns other than `SLOG_LOGGER` is named with the resolved
prefix `P + "_"`; for every record whose flattened attributes hold `uuid = X` and
no other key that folds to `UUID`, the fields map `P + "_UUID"` to `X`, and when
`P` is not `SLOG` they have no key `SLOG_UUID`. -/
theorem DefaultConverter_uuid_field {Attr Record : Type} (lib : SlogCommon Attr Record)
    (view : RecordView Record) (ro : RangeOrder) (name version : String) (g : Globals)
    (addSource : Bool) (replaceAttr : Option (List String → Attr → Attr))
    (loggerAttr : List Attr) (groups : List String) (record : Record) (P X : String)
    (hraw : g.FieldPrefix = P) (hP : WellFormedPrefix P)
    (hfresh : g.appliedFieldPrefix = "" ∨ g.appliedFieldPrefix ≠ P)
    (huuid : ("uuid", Scalar.str X) ∈ flattenToMap (lib.AttrsToMap
      (aggregate lib g addSource replaceAttr loggerAttr groups record)))
    (honly : ∀ e ∈ flattenToMap (lib.AttrsToMap
      (aggregate lib g addSource replaceAttr loggerAttr groups record)),
        fieldLoop e.1.data "" = some "UUID" → e = ("uuid", Scalar.str X)) :
    (∀ x ∈ (DefaultConverter lib view ro name version g addSource replaceAttr loggerAttr
        groups record).fields.keys, x = "SLOG_LOGGER" ∨ ∃ field, x = P ++ "_" ++ field) ∧
      (DefaultConverter lib view ro name version g addSource replaceAttr loggerAttr groups
        record).fields.get? (P ++ "_UUID") = some X ∧
      (P ≠ "SLOG" →
        "SLOG_UUID" ∉ (DefaultConverter lib view ro name version g addSource replaceAttr
          loggerAttr groups record).fields.keys) := by
  have hpfx : (fieldPrefixer g).1 = P ++ "_" := by
    have := (fieldPrefixer_of_fresh g (by rw [hraw]; exact hfresh)).2
      (by rw [hraw]; exact not_defaulted_of_wellFormed P hP)
    rw [this, hraw]
  have hname : P ++ "_UUID" = P ++ "_" ++ "UUID" := String.ext (by simp)
  refine ⟨?_, ?_, ?_⟩
  · intro x hx
    rcases DefaultConverter_key_cases lib view ro name version g addSource replaceAttr
      loggerAttr groups record x hx with h | ⟨k, _, _, h⟩
    · exact Or.inl h
    · exact Or.inr ⟨_, hpfx ▸ h⟩
  · obtain ⟨e, he, hne, hget⟩ := fieldsLoop_get?_of_source (P ++ "_")
      (ro.visit (flattenToMap (lib.AttrsToMap (aggregate lib g addSource replaceAttr
        loggerAttr groups record)))) [] (P ++ "_" ++ "UUID")
      ⟨("uuid", Scalar.str X), (ro.mem_visit _ _).2 huuid, by
        have : fieldLoop "uuid".data "" = some "UUID" := by decide
        simp [fieldName, this]⟩
    have hmem := (ro.mem_visit _ e).1 he
    have hfold : fieldLoop e.1.data "" = some "UUID" := by
      cases hf : fieldLoop e.1.data "" with
      | none => simp [fieldName, hf] at hne
      | some field =>
        simp only [fieldName, hf, Option.map_some', Option.some.injEq] at hne
        rw [string_append_cancel_left _ _ _ hne]
    have heq := honly e hmem hfold
    subst heq
    simp only [DefaultConverter]
    rw [hpfx, hname]
    exact mapsCopy_get?_of_get? ro _ _ _ _ (attrsToFields_nodup_keys lib ro _ _) hget
  · intro hne hx
    rcases DefaultConverter_key_cases lib view ro name version g addSource replaceAttr
      loggerAttr groups record _ hx with h | ⟨k, _, _, h⟩
    · exact absurd h (by decide)
    · rw [hpfx] at h
      exact hne (prefix_of_slog_uuid P _ h.symm)

/-- The witness of the amended C6: with the raw prefix `CUSTOM` on first use, the
record of the tests gives `CUSTOM_UUID = X` and no `SLOG_UUID`. -/
theorem DefaultConverter_uuid_field_witness :
    (∀ x ∈ (DefaultConverter plainLib plainView RangeOrder.inOrder "slog-journal" "v0"
        { Globals.initial with FieldPrefix := "CUSTOM" } false none [] []
        (uuidRecord LevelInfo "M" "X")).fields.keys,
        x = "SLOG_LOGGER" ∨ ∃ field, x = "CUSTOM" ++ "_" ++ field) ∧
    (DefaultConverter plainLib plainView RangeOrder.inOrder "slog-journal" "v0"
        { Globals.initial with FieldPrefix := "CUSTOM" } false none [] []
        (uuidRecord LevelInfo "M" "X")).fields.get? ("CUSTOM" ++ "_UUID") = some "X" ∧
      ("CUSTOM" ≠ "SLOG" →
        "SLOG_UUID" ∉ (DefaultConverter plainLib plainView RangeOrder.inOrder "slog-journal"
          "v0" { Globals.initial with FieldPrefix := "CUSTOM" } false none [] []
          (uuidRecord LevelInfo "M" "X")).fields.keys) :=
  DefaultConverter_uuid_field plainLib plainView RangeOrder.inOrder "slog-journal" "v0"
    { Globals.initial with FieldPrefix := "CUSTOM" } false none [] []
    (uuidRecord LevelInfo "M" "X") "CUSTOM" "X" rfl (by decide) (Or.inl rfl) (by decide)
    (by decide)

/-- C6 fails as stated. Once the unset prefix has been resolved, the raw prefix is
the valid `SLOG_`, equal to the cached one: the record of the tests then gives
`SLOG_UUID` and no `SLOG__UUID`, although `SLOG_` is not `SLOG`.  And with the raw
prefix `CUSTOM` on first use, a record carrying `uuid = X` and `UUID = Y` gives
`CUSTOM_UUID = Y`. -/
theorem DefaultConverter_uuid_field_fails :
    (WellFormedPrefix "SLOG_" ∧ "SLOG_" ≠ "SLOG" ∧
      (fieldPrefixer Globals.initial).2.FieldPrefix = "SLOG_" ∧
      (DefaultConverter plainLib plainView RangeOrder.inOrder "slog-journal" "v0"
        (fieldPrefixer Globals.initial).2 false none [] []
        (uuidRecord LevelInfo "M" "X")).fields.get? ("SLOG_" ++ "_UUID") = none ∧
      "SLOG_UUID" ∈ (DefaultConverter plainLib plainView RangeOrder.inOrder "slog-journal" "v0"
        (fieldPrefixer Globals.initial).2 false none [] []
        (uuidRecord LevelInfo "M" "X")).fields.keys) ∧
    (DefaultConverter plainLib plainView RangeOrder.inOrder "slog-journal" "v0"
        { Globals.initial with FieldPrefix := "CUSTOM" } false none [] []
        (plainRecord LevelInfo "M" [("uuid", .leaf (.str "X")), ("UUID", .leaf (.str "Y"))])
      ).fields.get? ("CUSTOM" ++ "_UUID") = some "Y" := by
  decide

/-! ## The name of the identity field -/

theorem string_append_cancel_right (a b s : String) (h : a ++ s = b ++ s) : a = b := by
  have hd := congrArg String.data h
  simp only [String.data_append] at hd
  exact String.ext (List.append_cancel_right hd)

/-- C11, as amended. For every state of the package variables, the prefix among
them, the identity field that carries `<name>:<version>` is named `SLOG_LOGGER`:
when no flattened key is given that name or the name made of the resolved prefix
and `LOGGER`, the fields map `SLOG_LOGGER` to `<name>:<version>`, and unless the
resolved prefix is `SLOG_` they have no key made of the resolved prefix and
`LOGGER`. -/
theorem DefaultConverter_logger_name {Attr Record : Type} (lib : SlogCommon Attr Record)
    (view : RecordView Record) (ro : RangeOrder) (name version : String) (g : Globals)
    (addSource : Bool) (replaceAttr : Option (List String → Attr → Attr))
    (loggerAttr : List Attr) (groups : List String) (record : Record)
    (hfixed : ∀ k ∈ (flattenToMap (lib.AttrsToMap (aggregate lib g addSource replaceAttr
      loggerAttr groups record))).keys, fieldName (fieldPrefixer g).1 k ≠ some "SLOG_LOGGER")
    (hprefixed : ∀ k ∈ (flattenToMap (lib.AttrsToMap (aggregate lib g addSource replaceAttr
      loggerAttr groups record))).keys,
        fieldName (fieldPrefixer g).1 k ≠ some ((fieldPrefixer g).1 ++ "LOGGER")) :
    (DefaultConverter lib view ro name version g addSource replaceAttr loggerAttr groups
        record).fields.get? "SLOG_LOGGER" = some (name ++ ":" ++ version) ∧
      ((fieldPrefixer g).1 ≠ "SLOG_" →
        (fieldPrefixer g).1 ++ "LOGGER" ∉ (DefaultConverter lib view ro name version g
          addSource replaceAttr loggerAttr groups record).fields.keys) := by
  constructor
  · simp only [DefaultConverter]
    rw [mapsCopy_get?_of_not_mem ro _ _ _ (attrsToFields_not_mem_keys lib ro _ _ _ hfixed)]
    simp [GoMap.get?]
  · intro hne hx
    simp only [DefaultConverter] at hx
    rcases (mapsCopy_mem_keys ro _ _ _).1 hx with h | h
    · have h1 : (fieldPrefixer g).1 ++ "LOGGER" = "SLOG_LOGGER" := by
        simpa [GoMap.keys] using h
      have h2 : ("SLOG_LOGGER" : String) = "SLOG_" ++ "LOGGER" := by decide
      rw [h2] at h1
      exact hne (string_append_cancel_right _ _ _ h1)
    · exact attrsToFields_not_mem_keys lib ro _ _ _ hprefixed h

/-- The witness of the amended C11: with the raw prefix `CUSTOM`, the record of
the tests has `SLOG_LOGGER` and no `CUSTOM_LOGGER`. -/
theorem DefaultConverter_logger_name_witness :
    (DefaultConverter plainLib plainView RangeOrder.inOrder "slog-journal" "v0"
        { Globals.initial with FieldPrefix := "CUSTOM" } false none [] []
        (uuidRecord LevelInfo "M" "X")).fields.get? "SLOG_LOGGER" =
          some ("slog-journal" ++ ":" ++ "v0") ∧
      ((fieldPrefixer { Globals.initial with FieldPrefix := "CUSTOM" }).1 ≠ "SLOG_" →
        (fieldPrefixer { Globals.initial with FieldPrefix := "CUSTOM" }).1 ++ "LOGGER" ∉
          (DefaultConverter plainLib plainView RangeOrder.inOrder "slog-journal" "v0"
            { Globals.initial with FieldPrefix := "CUSTOM" } false none [] []
            (uuidRecord LevelInfo "M" "X")).fields.keys) :=
  DefaultConverter_logger_name plainLib plainView RangeOrder.inOrder "slog-journal" "v0"
    { Globals.initial with FieldPrefix := "CUSTOM" } false none [] []
    (uuidRecord LevelInfo "M" "X") (by decide) (by decide)

/-- C11 fails as stated: with the raw prefix `CUSTOM`, resolved to `CUSTOM_`, the
record of the tests gets `CUSTOM_UUID`, but the identity field is `SLOG_LOGGER`
and there is no field `CUSTOM_LOGGER`. -/
theorem DefaultConverter_logger_not_prefixed :
    (fieldPrefixer { Globals.initial with FieldPrefix := "CUSTOM" }).1 = "CUSTOM_" ∧
    (DefaultConverter plainLib plainView RangeOrder.inOrder "slog-journal" "v0"
        { Globals.initial with FieldPrefix := "CUSTOM" } false none [] []
        (uuidRecord LevelInfo "M" "X")).fields =
      [("SLOG_LOGGER", "slog-journal:v0"), ("CUSTOM_UUID", "X")] ∧
    (DefaultConverter plainLib plainView RangeOrder.inOrder "slog-journal" "v0"
        { Globals.initial with FieldPrefix := "CUSTOM" } false none [] []
        (uuidRecord LevelInfo "M" "X")).fields.get? ("CUSTOM_" ++ "LOGGER") = none := by
  decide

/-! ## The priority and the order of the levels -/

theorem DefaultConverter_prio_eq {Attr Record : Type} (lib : SlogCommon Attr Record)
    (view : RecordView Record) (ro : RangeOrder) (name version : String) (g : Globals)
    (addSource : Bool) (replaceAttr : Option (List String → Attr → Attr))
    (loggerAttr : List Attr) (groups : List String) (record : Record) :
    (DefaultConverter lib view ro name version g addSource replaceAttr loggerAttr groups
      record).prio =
      (g.LogLevelToPriority.get? (levelString (view.Level record))).getD PriDebug := by
  simp only [DefaultConverter]
  cases g.LogLevelToPriority.get? (levelString (view.Level record)) <;> rfl

theorem sprintfPlusD_sign (val : Int) :
    '+' ∈ (sprintfPlusD val).data ∨ '-' ∈ (sprintfPlusD val).data := by
  unfold sprintfPlusD
  split_ifs
  · right; simp
  · left; simp

theorem levelString_sign_of_not_named (l : Level) (h : l ∉ namedLevels) :
    '+' ∈ (levelString l).data ∨ '-' ∈ (levelString l).data := by
  have hl : l ≠ -4 ∧ l ≠ 0 ∧ l ≠ 4 ∧ l ≠ 8 := by
    simp only [namedLevels, LevelDebug, LevelInfo, LevelWarn, LevelError, List.mem_cons,
      List.mem_singleton, not_or, List.not_mem_nil, or_false] at h
    exact h
  have key : ∀ (base : String) (val : Int), val ≠ 0 →
      ('+' ∈ (base ++ sprintfPlusD val).data ∨ '-' ∈ (base ++ sprintfPlusD val).data) := by
    intro base val _
    rcases sprintfPlusD_sign val with h | h
    · left; simp [h]
    · right; simp [h]
  unfold levelString
  simp only [LevelDebug, LevelInfo, LevelWarn, LevelError]
  split_ifs <;> first | (exfalso; unfold Level at *; omega) | exact key _ _ (by unfold Level at *; omega)

theorem levelString_not_named (l : Level) (h : l ∉ namedLevels) :
    levelString l ∉ defaultLogLevelToPriority.keys := by
  intro hmem
  have hs := levelString_sign_of_not_named l h
  simp only [defaultLogLevelToPriority, GoMap.keys, List.map_cons, List.map_nil,
    List.mem_cons, List.mem_singleton, List.not_mem_nil, or_false] at hmem
  rcases hmem with h | h | h | h <;> rw [h] at hs <;> revert hs <;> decide

/-- C19, as amended. With the default level table the priority is monotone over
the named levels Debug, Info, Warn and Error: of two records at named levels,
the one at the level at least as high gets a priority numerically no greater.
Every other level, those above Error among them, has no entry in the table and
gets the debug priority, 7. -/
theorem DefaultConverter_prio_monotone_named {Attr Record : Type}
    (lib : SlogCommon Attr Record)
    (view : RecordView Record) (ro : RangeOrder) (name version : String) (g : Globals)
    (addSource : Bool) (replaceAttr : Option (List String → Attr → Attr))
    (loggerAttr : List Attr) (groups : List String) (ra rb : Record)
    (htable : g.LogLevelToPriority = defaultLogLevelToPriority) :
    (view.Level ra ∈ namedLevels → view.Level rb ∈ namedLevels →
        view.Level ra ≤ view.Level rb →
        (DefaultConverter lib view ro name version g addSource replaceAttr loggerAttr groups
          rb).prio ≤
        (DefaultConverter lib view ro name version g addSource replaceAttr loggerAttr groups
          ra).prio) ∧
      (view.Level ra ∉ namedLevels →
        (DefaultConverter lib view ro name version g addSource replaceAttr loggerAttr groups
          ra).prio = 7) := by
  constructor
  · intro ha hb hab
    rw [DefaultConverter_prio_eq, DefaultConverter_prio_eq, htable]
    simp only [namedLevels, LevelDebug, LevelInfo, LevelWarn, LevelError, List.mem_cons,
      List.mem_singleton, List.not_mem_nil, or_false] at ha hb
    rcases ha with ha | ha | ha | ha <;> rcases hb with hb | hb | hb | hb <;>
      rw [ha, hb] at hab ⊢ <;> first | (exfalso; revert hab; decide) | decide
  · intro ha
    rw [DefaultConverter_prio_eq, htable]
    have hn := levelString_not_named _ ha
    cases hget : defaultLogLevelToPriority.get? (levelString (view.Level ra)) with
    | none => rfl
    | some p => exact absurd ((GoMap.mem_keys_iff _ _).2 ⟨p, hget⟩) hn

/-- The witness of the amended C19: Info against Error, and the level 9. -/
theorem DefaultConverter_prio_monotone_named_witness :
    (DefaultConverter plainLib plainView RangeOrder.inOrder "slog-journal" "v0"
        Globals.initial false none [] [] (uuidRecord LevelError "M" "X")).prio ≤
      (DefaultConverter plainLib plainView RangeOrder.inOrder "slog-journal" "v0"
        Globals.initial false none [] [] (uuidRecord LevelInfo "M" "X")).prio ∧
    (DefaultConverter plainLib plainView RangeOrder.inOrder "slog-journal" "v0"
        Globals.initial false none [] [] (uuidRecord 9 "M" "X")).prio = 7 :=
  ⟨(DefaultConverter_prio_monotone_named plainLib plainView RangeOrder.inOrder "slog-journal"
      "v0" Globals.initial false none [] [] (uuidRecord LevelInfo "M" "X")
      (uuidRecord LevelError "M" "X") rfl).1 (by decide) (by decide) (by decide),
   (DefaultConverter_prio_monotone_named plainLib plainView RangeOrder.inOrder "slog-journal"
      "v0" Globals.initial false none [] [] (uuidRecord 9 "M" "X")
      (uuidRecord 9 "M" "X") rfl).2 (by decide)⟩

/-- C19 fails as stated: with the default table a record at level 1, named
`INFO+1`, gets priority 7 while a record at level 0 gets 6, and a record at
level 9, above Error, gets 7 and not 3. -/
theorem DefaultConverter_prio_not_monotone :
    (0 : Level) ≤ 1 ∧
    (DefaultConverter plainLib plainView RangeOrder.inOrder "slog-journal" "v0"
        Globals.initial false none [] [] (uuidRecord 0 "M" "X")).prio = 6 ∧
    (DefaultConverter plainLib plainView RangeOrder.inOrder "slog-journal" "v0"
        Globals.initial false none [] [] (uuidRecord 1 "M" "X")).prio = 7 ∧
    ¬ ((DefaultConverter plainLib plainView RangeOrder.inOrder "slog-journal" "v0"
        Globals.initial false none [] [] (uuidRecord 1 "M" "X")).prio ≤
      (DefaultConverter plainLib plainView RangeOrder.inOrder "slog-journal" "v0"
        Globals.initial false none [] [] (uuidRecord 0 "M" "X")).prio) ∧
    LevelError ≤ 9 ∧
    (DefaultConverter plainLib plainView RangeOrder.inOrder "slog-journal" "v0"
        Globals.initial false none [] [] (uuidRecord 9 "M" "X")).prio = 7 := by
  decide

/-! ## What the resolved prefix depends on -/

theorem fieldPrefixer_of_hit (g : Globals) (h : CacheHit g) :
    (fieldPrefixer g).1 = g.FieldPrefix := by
  unfold fieldPrefixer
  rw [if_pos h]
  exact h.2

theorem fieldPrefixer_of_miss (g : Globals) (h : ¬ CacheHit g) :
    (fieldPrefixer g).1 = computePrefix g.FieldPrefix := by
  unfold fieldPrefixer
  rw [if_neg h]

/-- C20, as amended. The resolved prefix depends on the raw configured value and
on whether the cached applied prefix holds for it: two states with the same
`FieldPrefix` that both miss the cache, or both hit it, resolve to the same
prefix; on a miss it is `SLOG_` or the raw value followed by `_`, on a hit the
raw value itself. -/
theorem fieldPrefixer_depends_on_raw_and_cache (g₁ g₂ : Globals)
    (hraw : g₁.FieldPrefix = g₂.FieldPrefix) (hcache : CacheHit g₁ ↔ CacheHit g₂) :
    (fieldPrefixer g₁).1 = (fieldPrefixer g₂).1 ∧
      (CacheHit g₁ → (fieldPrefixer g₁).1 = g₁.FieldPrefix) ∧
      (¬ CacheHit g₁ → (fieldPrefixer g₁).1 = "SLOG_" ∨
        (fieldPrefixer g₁).1 = g₁.FieldPrefix ++ "_") := by
  refine ⟨?_, fieldPrefixer_of_hit g₁, ?_⟩
  · by_cases h : CacheHit g₁
    · rw [fieldPrefixer_of_hit g₁ h, fieldPrefixer_of_hit g₂ (hcache.1 h), hraw]
    · rw [fieldPrefixer_of_miss g₁ h, fieldPrefixer_of_miss g₂ (fun h2 => h (hcache.2 h2)), hraw]
  · intro h
    rw [fieldPrefixer_of_miss g₁ h]
    by_cases hd : Defaulted g₁.FieldPrefix
    · exact Or.inl ((computePrefix_eq _).1 hd)
    · exact Or.inr ((computePrefix_eq _).2 hd)

/-- The witness of the amended C20: the raw prefix `CUSTOM_` on first use and
after a resolution of `INVALID-PREFIX`, both missing the cache. -/
theorem fieldPrefixer_depends_on_raw_and_cache_witness :
    (fieldPrefixer { Globals.initial with FieldPrefix := "CUSTOM_" }).1 =
      (fieldPrefixer { (fieldPrefixer { Globals.initial with FieldPrefix := "INVALID-PREFIX" }).2
        with FieldPrefix := "CUSTOM_" }).1 :=
  (fieldPrefixer_depends_on_raw_and_cache { Globals.initial with FieldPrefix := "CUSTOM_" }
    { (fieldPrefixer { Globals.initial with FieldPrefix := "INVALID-PREFIX" }).2
        with FieldPrefix := "CUSTOM_" } rfl (by decide)).1

/-- C20 fails as stated: the state in which `CUSTOM_` has just been assigned and
the state left by resolving `CUSTOM` are both reachable and both hold the
`FieldPrefix` string `CUSTOM_`, but the first resolves to `CUSTOM__` and the
second to `CUSTOM_`. -/
theorem fieldPrefixer_depends_on_history :
    Reachable { Globals.initial with FieldPrefix := "CUSTOM_" } ∧
    Reachable (fieldPrefixer { Globals.initial with FieldPrefix := "CUSTOM" }).2 ∧
    ({ Globals.initial with FieldPrefix := "CUSTOM_" } : Globals).FieldPrefix = "CUSTOM_" ∧
    (fieldPrefixer { Globals.initial with FieldPrefix := "CUSTOM" }).2.FieldPrefix = "CUSTOM_" ∧
    (fieldPrefixer { Globals.initial with FieldPrefix := "CUSTOM_" }).1 = "CUSTOM__" ∧
    (fieldPrefixer (fieldPrefixer { Globals.initial with FieldPrefix := "CUSTOM" }).2).1 =
      "CUSTOM_" :=
  ⟨Reachable.assign _ _ Reachable.start rfl,
   Reachable.resolve _ (Reachable.assign _ _ Reachable.start rfl),
   rfl, by decide, by decide, by decide⟩

/-! ## The handler -/

theorem NewJournalHandler_handler {Attr Record Ctx : Type} (lib : SlogCommon Attr Record)
    (view : RecordView Record) (ro : RangeOrder) (name version : String)
    (o : HandlerOption Attr Record Ctx) (heap : Handlers Attr Record Ctx) :
    ∃ r : JournalHandler Attr Record Ctx,
      (o.NewJournalHandler lib view ro name version heap).1[
        (o.NewJournalHandler lib view ro name version heap).2]? = some r ∧
      (o.NewJournalHandler lib view ro name version heap).1 = heap ++ [r] ∧
      (o.NewJournalHandler lib view ro name version heap).2 = heap.length ∧
      r.option.Level = some (o.Level.getD LevelDebug) ∧
      r.option.Converter =
        some (o.Converter.getD (DefaultConverter lib view ro name version)) ∧
      r.option.AttrFromContext = some (o.AttrFromContext.getD []) ∧
      r.option.AddSource = o.AddSource ∧ r.option.ReplaceAttr = o.ReplaceAttr ∧
      r.attrs = [] ∧ r.groups = Slice.empty := by
  refine ⟨_, List.getElem?_concat_length _ _, rfl, rfl, ?_, ?_, ?_, ?_, ?_, rfl, rfl⟩ <;>
    cases hl : o.Level <;> cases hc : o.Converter <;> cases ha : o.AttrFromContext <;>
    simp [hl, hc, ha]

/-- C16. For every handler built by `Option.NewJournalHandler` and every level,
`Enabled` returns, and it is true exactly when the level is at least the
option's level; when the option's `Level` is unset the threshold is debug (-4). -/
theorem Enabled_iff_level_ge {Attr Record Ctx : Type} (lib : SlogCommon Attr Record)
    (view : RecordView Record) (ro : RangeOrder) (name version : String)
    (o : HandlerOption Attr Record Ctx) (heap : Handlers Attr Record Ctx) (level : Level) :
    (∀ threshold, o.Level = some threshold →
      JournalHandler.Enabled (o.NewJournalHandler lib view ro name version heap).1
        (o.NewJournalHandler lib view ro name version heap).2 level =
          some (decide (level ≥ threshold))) ∧
    (o.Level = none →
      JournalHandler.Enabled (o.NewJournalHandler lib view ro name version heap).1
        (o.NewJournalHandler lib view ro name version heap).2 level =
          some (decide (level ≥ -4))) := by
  obtain ⟨r, hr, _, _, hlevel, _⟩ := NewJournalHandler_handler lib view ro name version o heap
  constructor
  · intro threshold ht
    rw [ht] at hlevel
    simp only [JournalHandler.Enabled, hr, hlevel, Option.getD_some]
  · intro hn
    rw [hn] at hlevel
    simp only [JournalHandler.Enabled, hr, hlevel, Option.getD_none]
    rfl

/-- The witness of C16: the option of the tests at level Info, and the option with
no level, each asked about Debug. -/
theorem Enabled_iff_level_ge_witness :
    JournalHandler.Enabled ((levelOption LevelInfo).NewJournalHandler plainLib plainView
        RangeOrder.inOrder "slog-journal" "v0" []).1
      ((levelOption LevelInfo).NewJournalHandler plainLib plainView
        RangeOrder.inOrder "slog-journal" "v0" []).2 LevelDebug =
        some (decide (LevelDebug ≥ LevelInfo)) ∧
    JournalHandler.Enabled (emptyOption.NewJournalHandler plainLib plainView
        RangeOrder.inOrder "slog-journal" "v0" []).1
      (emptyOption.NewJournalHandler plainLib plainView
        RangeOrder.inOrder "slog-journal" "v0" []).2 LevelDebug =
        some (decide (LevelDebug ≥ -4)) :=
  ⟨(Enabled_iff_level_ge plainLib plainView RangeOrder.inOrder "slog-journal" "v0"
      (levelOption LevelInfo) [] LevelDebug).1 LevelInfo rfl,
   (Enabled_iff_level_ge plainLib plainView RangeOrder.inOrder "slog-journal" "v0"
      emptyOption [] LevelDebug).2 rfl⟩

/-! ## Slices and `append` -/

theorem take_set_of_le {α : Type} (a : α) {n m : Nat} (l : List α) (h : m ≤ n) :
    (l.set n a).take m = l.take m := by
  rw [List.set_take, List.set_eq_of_length_le]
  rw [List.length_take]
  omega

theorem Slice.get_of_wellFormed {mem : Arrays} {s : Slice} (hwf : s.WellFormed mem)
    (hcap : s.cap ≠ 0) :
    ∃ arr, mem[s.array]? = some arr ∧ arr.length = s.cap ∧ s.array < mem.length := by
  rcases hwf.2 with h0 | h
  · exact absurd h0 hcap
  · cases hget : mem[s.array]? with
    | none => rw [hget] at h; cases h
    | some arr =>
      rw [hget] at h
      refine ⟨arr, rfl, by simpa using h, ?_⟩
      by_contra hge
      rw [List.getElem?_eq_none (Nat.le_of_not_lt hge)] at hget
      cases hget

theorem Slice.empty_wellFormed (mem : Arrays) : Slice.empty.WellFormed mem :=
  ⟨Nat.le_refl 0, Or.inl rfl⟩

theorem Slice.elems_empty (mem : Arrays) : Slice.empty.elems mem = [] := rfl

theorem Slice.length_elems {mem : Arrays} {s : Slice} (hwf : s.WellFormed mem) :
    (s.elems mem).length = s.len := by
  by_cases hcap : s.cap = 0
  · have hlen : s.len = 0 := by have := hwf.1; omega
    simp [Slice.elems, hlen]
  · obtain ⟨arr, hget, hlength, _⟩ := Slice.get_of_wellFormed hwf hcap
    have := hwf.1
    simp only [Slice.elems, hget, Option.getD_some, List.length_take]
    omega

/-- The elements of `append(s, x)` are those of `s` followed by `x`. -/
theorem Slice.elems_append (spare : Nat → Nat) {mem : Arrays} {s : Slice} (x : String)
    (hwf : s.WellFormed mem) :
    (s.append spare mem x).2.elems (s.append spare mem x).1 = s.elems mem ++ [x] := by
  by_cases hlt : s.len < s.cap
  · obtain ⟨arr, hget, hlength, hidx⟩ := Slice.get_of_wellFormed hwf (by omega)
    have hcell : s.len < arr.length := by omega
    simp only [Slice.append, hlt, if_true, Slice.elems, hget, Option.getD_some,
      List.getElem?_set_self hidx]
    rw [List.take_succ, List.getElem?_set_self hcell, take_set_of_le _ _ (Nat.le_refl _)]
    rfl
  · have hlen := Slice.length_elems hwf
    simp only [Slice.append, hlt, if_false]
    simp only [Slice.elems, List.getElem?_concat_length, Option.getD_some]
    rw [← List.singleton_append, ← List.append_assoc, List.take_left']
    simp only [List.length_append, List.length_singleton]
    exact congrArg (fun n => n + 1) hlen

/-- The call `append(s, x)` leaves the elements of `s` as they were: it writes
past the last of them or into an array of its own. -/
theorem Slice.elems_after_append (spare : Nat → Nat) {mem : Arrays} {s : Slice} (x : String)
    (hwf : s.WellFormed mem) :
    s.elems (s.append spare mem x).1 = s.elems mem := by
  by_cases hlt : s.len < s.cap
  · obtain ⟨arr, hget, hlength, hidx⟩ := Slice.get_of_wellFormed hwf (by omega)
    simp only [Slice.append, hlt, if_true, Slice.elems, hget, Option.getD_some,
      List.getElem?_set_self hidx]
    exact take_set_of_le _ _ (Nat.le_refl _)
  · by_cases hcap : s.cap = 0
    · have hlen : s.len = 0 := by have := hwf.1; omega
      simp [Slice.elems, hlen]
    · obtain ⟨arr, hget, hlength, hidx⟩ := Slice.get_of_wellFormed hwf hcap
      simp only [Slice.append, hlt, if_false, Slice.elems]
      rw [List.getElem?_append_left hidx]

/-- The call `append(s, x)` keeps every slice well-formed: no array changes its
size. -/
theorem Slice.wellFormed_after_append (spare : Nat → Nat) {mem : Arrays} (s : Slice)
    (x : String) {t : Slice} (ht : t.WellFormed mem) :
    t.WellFormed (s.append spare mem x).1 := by
  refine ⟨ht.1, ?_⟩
  by_cases hcap : t.cap = 0
  · exact Or.inl hcap
  · obtain ⟨arr, hget, hlength, hidx⟩ := Slice.get_of_wellFormed ht hcap
    right
    by_cases hlt : s.len < s.cap
    · simp only [Slice.append, hlt, if_true]
      by_cases hsame : s.array = t.array
      · rw [hsame, List.getElem?_set_self hidx, hget]
        simp [hlength]
      · rw [List.getElem?_set_ne hsame, hget]
        simp [hlength]
    · simp only [Slice.append, hlt, if_false]
      rw [List.getElem?_append_left hidx, hget]
      simp [hlength]

/-- The slice `append(s, x)` is well-formed. -/
theorem Slice.append_wellFormed (spare : Nat → Nat) {mem : Arrays} {s : Slice} (x : String)
    (hwf : s.WellFormed mem) :
    (s.append spare mem x).2.WellFormed (s.append spare mem x).1 := by
  by_cases hlt : s.len < s.cap
  · obtain ⟨arr, hget, hlength, hidx⟩ := Slice.get_of_wellFormed hwf (by omega)
    simp only [Slice.append, hlt, if_true]
    refine ⟨by show s.len + 1 ≤ s.cap; omega, Or.inr ?_⟩
    show Option.map List.length (mem.set s.array _)[s.array]? = some s.cap
    rw [List.getElem?_set_self hidx, hget]
    simp [hlength]
  · have hlen := Slice.length_elems hwf
    simp only [Slice.append, hlt, if_false]
    refine ⟨Nat.le_add_right _ _, Or.inr ?_⟩
    show Option.map List.length (mem ++ [_])[mem.length]? = _
    rw [List.getElem?_concat_length]
    simp [hlen]
    omega


/-- The call `append(s, x)` leaves the elements of every slice that does not view
the cell after the last element of `s`: a slice of another array, or one of the
same array that is not longer than `s`. -/
theorem Slice.elems_of_other_after_append (spare : Nat → Nat) {mem : Arrays} {s : Slice}
    (x : String) (hwf : s.WellFormed mem) {t : Slice} (ht : t.WellFormed mem)
    (hfar : t.array ≠ s.array ∨ t.len ≤ s.len) :
    t.elems (s.append spare mem x).1 = t.elems mem := by
  by_cases hlt : s.len < s.cap
  · obtain ⟨arr, hget, hlength, hidx⟩ := Slice.get_of_wellFormed hwf (by omega)
    simp only [Slice.append, hlt, if_true, Slice.elems, hget, Option.getD_some]
    by_cases hsame : t.array = s.array
    · have hle : t.len ≤ s.len := hfar.resolve_left (fun hne => hne hsame)
      rw [hsame, List.getElem?_set_self hidx, hget]
      exact take_set_of_le _ _ hle
    · rw [List.getElem?_set_ne (Ne.symm hsame)]
  · by_cases hcap : t.cap = 0
    · have hlen : t.len = 0 := by have := ht.1; omega
      simp [Slice.elems, hlen]
    · obtain ⟨arr, hget, hlength, hidx⟩ := Slice.get_of_wellFormed ht hcap
      simp only [Slice.append, hlt, if_false, Slice.elems]
      rw [List.getElem?_append_left hidx]

/-! ## `WithGroup` -/

/-- C17. The call `WithGroup("")` returns the pointer to the receiver and leaves
the handlers and the backing arrays as they were.  For a name that is not empty,
`WithGroup(name)` returns a pointer to a handler whose group path is that of the
receiver followed by the name and whose option and attributes are those of the
receiver; the receiver keeps its option, its attributes and its group path.  So
does every handler allocated before, unless its `groups` views the cell after
the last group of the receiver, which `append` may overwrite. -/
theorem WithGroup_frame {Attr Record Ctx : Type} (spare : Nat → Nat)
    (heap : Handlers Attr Record Ctx) (mem : Arrays) (h : Nat)
    (r : JournalHandler Attr Record Ctx) (name : String)
    (hr : heap[h]? = some r) (hwf : r.groups.WellFormed mem) :
    JournalHandler.WithGroup spare heap mem h "" = some (heap, mem, h) ∧
    (name ≠ "" →
      ∃ heap' mem' h' r',
        JournalHandler.WithGroup spare heap mem h name = some (heap', mem', h') ∧
        heap'[h']? = some r' ∧
        r'.groups.elems mem' = r.groups.elems mem ++ [name] ∧
        r'.option = r.option ∧ r'.attrs = r.attrs ∧
        heap'[h]? = some r ∧ r.groups.elems mem' = r.groups.elems mem ∧
        r'.groups.WellFormed mem' ∧
        ∀ (p : Nat) q, heap[p]? = some q → q.groups.WellFormed mem →
          heap'[p]? = some q ∧ q.groups.WellFormed mem' ∧
          (q.groups.array ≠ r.groups.array ∨ q.groups.len ≤ r.groups.len →
            q.groups.elems mem' = q.groups.elems mem)) := by
  constructor
  · simp [JournalHandler.WithGroup]
  · intro hne
    have hold : ∀ (p : Nat) q, heap[p]? = some q →
        (heap ++ [({ option := r.option, attrs := r.attrs,
                     groups := (r.groups.append spare mem name).2 } :
          JournalHandler Attr Record Ctx)])[p]? = some q := by
      intro p q hp
      have hlt : p < heap.length := by
        by_contra hge
        rw [List.getElem?_eq_none (Nat.le_of_not_lt hge)] at hp
        cases hp
      rw [List.getElem?_append_left hlt]
      exact hp
    refine ⟨heap ++ [{ option := r.option, attrs := r.attrs,
                       groups := (r.groups.append spare mem name).2 }],
      (r.groups.append spare mem name).1, heap.length,
      { option := r.option, attrs := r.attrs, groups := (r.groups.append spare mem name).2 },
      ?_, List.getElem?_concat_length _ _,
      Slice.elems_append spare name hwf, rfl, rfl, hold h r hr,
      Slice.elems_after_append spare name hwf, Slice.append_wellFormed spare name hwf, ?_⟩
    · simp only [JournalHandler.WithGroup, hne, if_false, hr]
    · intro p q hp hq
      exact ⟨hold p q hp, Slice.wellFormed_after_append spare r.groups name hq,
        Slice.elems_of_other_after_append spare name hwf hq⟩

/-- The witness of C17: the receiver with the groups `a`, `b`, `c` in an array of
four cells, where `append` writes the new name in place. -/
theorem WithGroup_frame_witness :
    ([abcHandler][0]? = some abcHandler ∧ abcHandler.groups.WellFormed [["a", "b", "c", ""]]) ∧
    JournalHandler.WithGroup doublingSpare [abcHandler] [["a", "b", "c", ""]] 0 "" =
      some ([abcHandler], [["a", "b", "c", ""]], 0) ∧
    ∃ heap' mem' h' r',
      JournalHandler.WithGroup doublingSpare [abcHandler] [["a", "b", "c", ""]] 0 "d" =
        some (heap', mem', h') ∧
      heap'[h']? = some r' ∧
      r'.groups.elems mem' = ["a", "b", "c", "d"] ∧
      r'.option = abcHandler.option ∧ r'.attrs = abcHandler.attrs ∧
      heap'[0]? = some abcHandler ∧ abcHandler.groups.elems mem' = ["a", "b", "c"] :=
  ⟨⟨rfl, by decide⟩,
   (WithGroup_frame doublingSpare [abcHandler] [["a", "b", "c", ""]] 0 abcHandler "d" rfl
      (by decide)).1,
   match (WithGroup_frame doublingSpare [abcHandler] [["a", "b", "c", ""]] 0 abcHandler "d" rfl
      (by decide)).2 (by decide) with
   | ⟨heap', mem', h', r', hw, hnew, hpath, hopt, hattrs, hrecv, hrpath, _⟩ =>
     ⟨heap', mem', h', r', hw, hnew, hpath, hopt, hattrs, hrecv, hrpath⟩⟩

/-- The handler that `NewJournalHandler` allocates has a well-formed `groups`,
whatever the backing arrays. -/
theorem NewJournalHandler_wellFormed {Attr Record Ctx : Type} (lib : SlogCommon Attr Record)
    (view : RecordView Record) (ro : RangeOrder) (name version : String)
    (o : HandlerOption Attr Record Ctx) (heap : Handlers Attr Record Ctx) (mem : Arrays)
    (hheap : ∀ q ∈ heap, q.groups.WellFormed mem) :
    ∀ q ∈ (o.NewJournalHandler lib view ro name version heap).1, q.groups.WellFormed mem := by
  obtain ⟨r, _, hstore, _, _, _, _, _, _, _, hgroups⟩ :=
    NewJournalHandler_handler lib view ro name version o heap
  intro q hq
  rw [hstore, List.mem_append, List.mem_singleton] at hq
  rcases hq with hq | hq
  · exact hheap q hq
  · rw [hq, hgroups]
    exact Slice.empty_wellFormed mem

/-- The method `WithGroup` keeps the `groups` of every handler well-formed, so
well-formedness holds of every handler that the methods of the package build. -/
theorem WithGroup_wellFormed {Attr Record Ctx : Type} (spare : Nat → Nat)
    (heap heap' : Handlers Attr Record Ctx) (mem mem' : Arrays) (h h' : Nat) (name : String)
    (hheap : ∀ q ∈ heap, q.groups.WellFormed mem)
    (hwith : JournalHandler.WithGroup spare heap mem h name = some (heap', mem', h')) :
    ∀ q ∈ heap', q.groups.WellFormed mem' := by
  by_cases hname : name = ""
  · simp only [JournalHandler.WithGroup, hname, if_true, Option.some.injEq,
      Prod.mk.injEq] at hwith
    obtain ⟨h1, h2, _⟩ := hwith
    rw [← h1, ← h2]
    exact hheap
  · cases hr : heap[h]? with
    | none => simp [JournalHandler.WithGroup, hname, hr] at hwith
    | some r =>
      simp only [JournalHandler.WithGroup, hname, if_false, hr, Option.some.injEq,
        Prod.mk.injEq] at hwith
      obtain ⟨h1, h2, _⟩ := hwith
      have hwf : r.groups.WellFormed mem := hheap r (List.getElem?_mem hr)
      intro q hq
      rw [← h1, List.mem_append, List.mem_singleton] at hq
      rw [← h2]
      rcases hq with hq | hq
      · exact Slice.wellFormed_after_append spare r.groups name (hheap q hq)
      · rw [hq]
        exact Slice.append_wellFormed spare name hwf

/-- The method `WithAttrs` keeps the `groups` of every handler well-formed. -/
theorem WithAttrs_wellFormed {Attr Record Ctx : Type} (libh : SlogCommonHandler Attr Ctx)
    (heap heap' : Handlers Attr Record Ctx) (mem : Arrays) (h h' : Nat) (attrs : List Attr)
    (hheap : ∀ q ∈ heap, q.groups.WellFormed mem)
    (hwith : JournalHandler.WithAttrs libh heap mem h attrs = some (heap', h')) :
    ∀ q ∈ heap', q.groups.WellFormed mem := by
  cases hr : heap[h]? with
  | none => simp [JournalHandler.WithAttrs, hr] at hwith
  | some r =>
    simp only [JournalHandler.WithAttrs, hr, Option.some.injEq, Prod.mk.injEq] at hwith
    obtain ⟨h1, _⟩ := hwith
    intro q hq
    rw [← h1, List.mem_append, List.mem_singleton] at hq
    rcases hq with hq | hq
    · exact hheap q hq
    · rw [hq]
      exact hheap r (List.getElem?_mem hr)

/-- Handlers derived from one receiver may share a cell.  When capacities double,
the handler `NewJournalHandler().WithGroup("a").WithGroup("b").WithGroup("c")`
has three groups in an array of four cells; `WithGroup("d")` and then
`WithGroup("e")` on it both write the fourth cell, so the handler returned for
`d` has the group path `a`, `b`, `c`, `d` before the second call and `a`, `b`,
`c`, `e` after it. -/
theorem WithGroup_shares_cell :
    ((((JournalHandler.WithGroup doublingSpare
            ((levelOption LevelInfo).NewJournalHandler plainLib plainView RangeOrder.inOrder
              "slog-journal" "v0" []).1 []
            ((levelOption LevelInfo).NewJournalHandler plainLib plainView RangeOrder.inOrder
              "slog-journal" "v0" []).2 "a").bind
        (fun sa => JournalHandler.WithGroup doublingSpare sa.1 sa.2.1 sa.2.2 "b")).bind
        (fun sb => JournalHandler.WithGroup doublingSpare sb.1 sb.2.1 sb.2.2 "c")).bind
        (fun sc => (JournalHandler.WithGroup doublingSpare sc.1 sc.2.1 sc.2.2 "d").bind
          (fun sd => (JournalHandler.WithGroup doublingSpare sd.1 sd.2.1 sc.2.2 "e").map
            (fun se =>
              ((sc.1[sc.2.2]?).map (fun q => (q.groups.len, q.groups.cap)),
               (sd.1[sd.2.2]?).map (fun q => q.groups.elems sd.2.1),
               (se.1[sd.2.2]?).map (fun q => q.groups.elems se.2.1),
               (se.1[se.2.2]?).map (fun q => q.groups.elems se.2.1),
               (se.1[sc.2.2]?).map (fun q => q.groups.elems se.2.1)))))) =
      some (some (3, 4), some ["a", "b", "c", "d"], some ["a", "b", "c", "e"],
        some ["a", "b", "c", "e"], some ["a", "b", "c"]) := by
  rfl

/-! ## Groups -/

theorem folded_eq_toUpper (c : Char) : folded c = c.toUpper := rfl

theorem DefaultConverter_get?_of_only_source {Attr Record : Type}
    (lib : SlogCommon Attr Record)
    (view : RecordView Record) (ro : RangeOrder) (name version : String) (g : Globals)
    (addSource : Bool) (replaceAttr : Option (List String → Attr → Attr))
    (loggerAttr : List Attr) (groups : List String) (record : Record)
    (k : String) (t : Scalar) (field : String)
    (hmem : (k, t) ∈ flattenToMap (lib.AttrsToMap
      (aggregate lib g addSource replaceAttr loggerAttr groups record)))
    (hfield : fieldLoop k.data "" = some field)
    (honly : ∀ e ∈ flattenToMap (lib.AttrsToMap
      (aggregate lib g addSource replaceAttr loggerAttr groups record)),
        fieldLoop e.1.data "" = some field → e = (k, t)) :
    (DefaultConverter lib view ro name version g addSource replaceAttr loggerAttr groups
      record).fields.get? ((fieldPrefixer g).1 ++ field) = some (sprintf t) := by
  obtain ⟨e, he, hne, hget⟩ := fieldsLoop_get?_of_source (fieldPrefixer g).1
    (ro.visit (flattenToMap (lib.AttrsToMap (aggregate lib g addSource replaceAttr
      loggerAttr groups record)))) [] ((fieldPrefixer g).1 ++ field)
    ⟨(k, t), (ro.mem_visit _ _).2 hmem, by simp [fieldName, hfield]⟩
  have hmem' := (ro.mem_visit _ e).1 he
  have hfold : fieldLoop e.1.data "" = some field := by
    cases hf : fieldLoop e.1.data "" with
    | none => simp [fieldName, hf] at hne
    | some field' =>
      simp only [fieldName, hf, Option.map_some', Option.some.injEq] at hne
      rw [string_append_cancel_left _ _ _ hne]
  have heq := honly e hmem' hfold
  subst heq
  simp only [DefaultConverter]
  exact mapsCopy_get?_of_get? ro _ _ _ _ (attrsToFields_nodup_keys lib ro _ _) hget

/-- C14, as amended. Attributes logged through a handler derived with `WithGroup`
are nested under the group name: for every group name `g` that is not empty and
attribute key `k`, both made of `[A-Za-z0-9_]`, and every string `v`, when the
library turns the record logged under the group path `[g]` into the tree
`{g: {k: v}}`, the handler `NewJournalHandler().WithGroup(g)` with the default
prefix hands over the field `"SLOG_" + upper(g) + "_" + upper(k)` with value
`v`. -/
theorem Handle_WithGroup_nests {Attr Record Ctx : Type} (lib : SlogCommon Attr Record)
    (libh : SlogCommonHandler Attr Ctx) (view : RecordView Record) (ro : RangeOrder)
    (spare : Nat → Nat) (name version : String) (o : HandlerOption Attr Record Ctx)
    (heap : Handlers Attr Record Ctx) (mem : Arrays) (gl : Globals) (ctx : Ctx)
    (record : Record) (g k v : String)
    (hconv : o.Converter = none) (hfrom : o.AttrFromContext = none)
    (hctx : libh.ContextExtractor ctx [] = [])
    (hg : g ≠ "") (hgv : ∀ c ∈ g.data, KeyChar c) (hkv : ∀ c ∈ k.data, KeyChar c)
    (hpfx : (fieldPrefixer gl).1 = "SLOG_")
    (hnest : lib.AttrsToMap (aggregate lib gl o.AddSource o.ReplaceAttr [] [g] record) =
      some [(g, Value.map [(k, Value.leaf (Scalar.str v))])]) :
    ∃ heap' mem' h' out,
      JournalHandler.WithGroup spare (o.NewJournalHandler lib view ro name version heap).1 mem
        (o.NewJournalHandler lib view ro name version heap).2 g = some (heap', mem', h') ∧
      JournalHandler.Handle libh heap' mem' h' gl ctx record = some out ∧
      out.fields.get? ("SLOG_" ++ upper g ++ "_" ++ upper k) = some v := by
  obtain ⟨r, hr, _, _, _, hrconv, hrfrom, hradd, hrrep, hrattrs, hrgroups⟩ :=
    NewJournalHandler_handler lib view ro name version o heap
  rw [hconv] at hrconv
  rw [hfrom] at hrfrom
  have hwith : JournalHandler.WithGroup spare
      (o.NewJournalHandler lib view ro name version heap).1 mem
      (o.NewJournalHandler lib view ro name version heap).2 g =
      some ((o.NewJournalHandler lib view ro name version heap).1 ++
        [{ option := r.option, attrs := r.attrs, groups := (r.groups.append spare mem g).2 }],
        (r.groups.append spare mem g).1,
        (o.NewJournalHandler lib view ro name version heap).1.length) := by
    simp only [JournalHandler.WithGroup, hg, if_false, hr]
  have hpath : (r.groups.append spare mem g).2.elems (r.groups.append spare mem g).1 = [g] := by
    rw [Slice.elems_append spare g (by rw [hrgroups]; exact Slice.empty_wellFormed mem),
      hrgroups]
    rfl
  have hflat : flattenToMap (lib.AttrsToMap
      (aggregate lib gl o.AddSource o.ReplaceAttr [] [g] record)) =
      [(g ++ "_" ++ k, Scalar.str v)] := by
    rw [hnest]
    simp [flattenToMap, walkTop, walk, walkMap, childKey, hg, GoMap.set]
  have hvalid : ∀ c ∈ (g ++ "_" ++ k).data, KeyChar c := by
    intro c hc
    simp only [String.data_append, List.mem_append] at hc
    rcases hc with (hc | hc) | hc
    · exact hgv c hc
    · have : c = '_' := by simpa using hc
      exact Or.inr (Or.inr (Or.inr this))
    · exact hkv c hc
  have hfield := (fieldLoop_eq_some_iff (g ++ "_" ++ k).data _).2 ⟨hvalid, rfl⟩
  have hname : "SLOG_" ++ upper g ++ "_" ++ upper k =
      (fieldPrefixer gl).1 ++ String.mk ((g ++ "_" ++ k).data.map folded) := by
    rw [hpfx]
    apply String.ext
    have hfun : folded = Char.toUpper := funext folded_eq_toUpper
    simp [upper, hfun]
  have hhandle : JournalHandler.Handle libh
      ((o.NewJournalHandler lib view ro name version heap).1 ++
        [{ option := r.option, attrs := r.attrs, groups := (r.groups.append spare mem g).2 }])
      (r.groups.append spare mem g).1
      (o.NewJournalHandler lib view ro name version heap).1.length gl ctx record =
      some (DefaultConverter lib view ro name version gl o.AddSource o.ReplaceAttr [] [g]
        record) := by
    simp only [JournalHandler.Handle, List.getElem?_concat_length, hrconv, hrfrom,
      Option.getD_none, Option.getD_some, hctx, hradd, hrrep, hrattrs, hpath,
      List.append_nil, List.nil_append]
  refine ⟨_, _, _, _, hwith, hhandle, ?_⟩
  rw [hname]
  have := DefaultConverter_get?_of_only_source lib view ro name version gl o.AddSource
    o.ReplaceAttr [] [g] record (g ++ "_" ++ k) (Scalar.str v) _
    (by rw [hflat]; exact List.mem_singleton.2 rfl) hfield
    (by rw [hflat]; intro e he _; exact List.mem_singleton.1 he)
  simpa [sprintf] using this

/-- The witness of the amended C14: the group `group` and the key `uuid` of the
tests give `SLOG_GROUP_UUID`. -/
theorem Handle_WithGroup_nests_witness :
    ("SLOG_" ++ upper "group" ++ "_" ++ upper "uuid" = "SLOG_GROUP_UUID") ∧
    ∃ heap' mem' h' out,
      JournalHandler.WithGroup doublingSpare
        ((levelOption LevelInfo).NewJournalHandler plainLib plainView
          RangeOrder.inOrder "slog-journal" "v0" []).1 []
        ((levelOption LevelInfo).NewJournalHandler plainLib plainView
          RangeOrder.inOrder "slog-journal" "v0" []).2 "group" = some (heap', mem', h') ∧
      JournalHandler.Handle plainLibHandler heap' mem' h' Globals.initial ()
        (uuidRecord LevelInfo "M" "X") = some out ∧
      out.fields.get? ("SLOG_" ++ upper "group" ++ "_" ++ upper "uuid") = some "X" :=
  ⟨by decide,
   Handle_WithGroup_nests plainLib plainLibHandler plainView RangeOrder.inOrder doublingSpare
    "slog-journal" "v0" (levelOption LevelInfo) [] [] Globals.initial ()
    (uuidRecord LevelInfo "M" "X")
    "group" "uuid" "X" rfl rfl rfl (by decide) (by decide) (by decide) (by decide) rfl⟩

/-- C14 fails as stated: the group name `my-group` is not empty, but its hyphen
makes the flattened key `my-group_uuid` one that `attrsToFields` skips, so the
handler hands over the identity field alone and no `SLOG_MY-GROUP_UUID`. -/
theorem Handle_WithGroup_drops_invalid_group :
    "my-group" ≠ "" ∧
    "SLOG_" ++ upper "my-group" ++ "_" ++ upper "uuid" = "SLOG_MY-GROUP_UUID" ∧
    ((JournalHandler.WithGroup doublingSpare
        ((levelOption LevelInfo).NewJournalHandler plainLib plainView
          RangeOrder.inOrder "slog-journal" "v0" []).1 []
        ((levelOption LevelInfo).NewJournalHandler plainLib plainView
          RangeOrder.inOrder "slog-journal" "v0" []).2 "my-group").bind
      (fun p => JournalHandler.Handle plainLibHandler p.1 p.2.1 p.2.2 Globals.initial ()
        (uuidRecord LevelInfo "M" "X"))).map (fun out => out.fields) =
      some [("SLOG_LOGGER", "slog-journal:v0")] ∧
    GoMap.get? [("SLOG_LOGGER", "slog-journal:v0")] "SLOG_MY-GROUP_UUID" = none := by
  decide

/-! ## `flattenToMap` and the leaves -/

theorem GoMap.setAll_append {α : Type} (m : GoMap α) (l₁ l₂ : List (String × α)) :
    GoMap.setAll m (l₁ ++ l₂) = GoMap.setAll (GoMap.setAll m l₁) l₂ := by
  induction l₁ generalizing m with
  | nil => rfl
  | cons e rest ih =>
    obtain ⟨k, v⟩ := e
    simp only [List.cons_append, GoMap.setAll]
    exact ih _

theorem GoMap.setAll_eq_mapsCopyLoop {α : Type} (m : GoMap α) (l : List (String × α)) :
    GoMap.setAll m l = mapsCopyLoop m l := by
  induction l generalizing m with
  | nil => rfl
  | cons e rest ih =>
    obtain ⟨k, v⟩ := e
    simp only [GoMap.setAll, mapsCopyLoop]
    exact ih _

theorem walkKey_concat (path : List String) (k : String) :
    walkKey (path ++ [k]) = childKey (walkKey path) k := by
  cases path with
  | nil => simp [walkKey, childKey]
  | cons s rest => simp [walkKey, List.foldl_append]

mutual
theorem walk_eq_setAll : ∀ (v : Value) (path : List String) (flat : GoMap Scalar),
    walk v (walkKey path) flat =
      GoMap.setAll flat ((leavesOf v path).map (fun e => (walkKey e.1, e.2)))
  | .leaf t, path, flat => by simp [walk, leavesOf, GoMap.setAll]
  | .map t, path, flat => by
    rw [walk, leavesOf]
    exact walkMap_eq_setAll t path flat
  | .seq t, path, flat => by
    rw [walk, leavesOf]
    exact walkSeq_eq_setAll t path 0 flat
theorem walkMap_eq_setAll : ∀ (t : List (String × Value)) (path : List String)
    (flat : GoMap Scalar),
    walkMap t (walkKey path) flat =
      GoMap.setAll flat ((leavesOfMap t path).map (fun e => (walkKey e.1, e.2)))
  | [], path, flat => by simp [walkMap, leavesOfMap, GoMap.setAll]
  | (k, val) :: rest, path, flat => by
    rw [walkMap, leavesOfMap, ← walkKey_concat, walk_eq_setAll val (path ++ [k]) flat,
      walkMap_eq_setAll rest path, List.map_append, GoMap.setAll_append]
theorem walkSeq_eq_setAll : ∀ (t : List Value) (path : List String) (i : Nat)
    (flat : GoMap Scalar),
    walkSeq t (walkKey path) i flat =
      GoMap.setAll flat ((leavesOfSeq t path i).map (fun e => (walkKey e.1, e.2)))
  | [], path, i, flat => by simp [walkSeq, leavesOfSeq, GoMap.setAll]
  | elem :: rest, path, i, flat => by
    have hi : itoa i = Nat.repr i := rfl
    rw [walkSeq, leavesOfSeq, hi, ← walkKey_concat, walk_eq_setAll elem (path ++ [Nat.repr i]) flat,
      walkSeq_eq_setAll rest path (i + 1), List.map_append, GoMap.setAll_append]
end

theorem walkTop_eq_walkMap (nested : List (String × Value)) (flat : GoMap Scalar) :
    walkTop nested flat = walkMap nested "" flat := by
  induction nested generalizing flat with
  | nil => simp [walkTop, walkMap]
  | cons e rest ih =>
    obtain ⟨k, v⟩ := e
    simp only [walkTop, walkMap, childKey, ne_eq, not_true_eq_false, if_false]
    exact ih _

theorem flattenToMap_eq_setAll (nested : List (String × Value)) :
    flattenToMap (some nested) =
      GoMap.setAll [] ((leaves nested).map (fun e => (walkKey e.1, e.2))) := by
  simp only [flattenToMap, walkTop_eq_walkMap, leaves]
  exact walkMap_eq_setAll nested [] []

mutual
theorem leavesOf_extends : ∀ (v : Value) (path : List String),
    ∀ e ∈ leavesOf v path, ∃ q, e.1 = path ++ q
  | .leaf t, path => by
    intro e he
    simp only [leavesOf, List.mem_singleton] at he
    exact ⟨[], by simp [he]⟩
  | .map t, path => by
    rw [leavesOf]
    intro e he
    obtain ⟨k, _, q, hq⟩ := leavesOfMap_extends t path e he
    exact ⟨k :: q, hq⟩
  | .seq t, path => by
    rw [leavesOf]
    exact leavesOfSeq_extends t path 0
theorem leavesOfMap_extends : ∀ (t : List (String × Value)) (path : List String),
    ∀ e ∈ leavesOfMap t path, ∃ k ∈ t.map Prod.fst, ∃ q, e.1 = path ++ k :: q
  | [], path => by
    intro e he
    simp [leavesOfMap] at he
  | (k, val) :: rest, path => by
    intro e he
    rw [leavesOfMap, List.mem_append] at he
    rcases he with he | he
    · obtain ⟨q, hq⟩ := leavesOf_extends val (path ++ [k]) e he
      exact ⟨k, by simp, q, by simp [hq]⟩
    · obtain ⟨k', hk', q, hq⟩ := leavesOfMap_extends rest path e he
      exact ⟨k', by simp only [List.map_cons, List.mem_cons]; exact Or.inr hk', q, hq⟩
theorem leavesOfSeq_extends : ∀ (t : List Value) (path : List String) (i : Nat),
    ∀ e ∈ leavesOfSeq t path i, ∃ q, e.1 = path ++ q
  | [], path, i => by
    intro e he
    simp [leavesOfSeq] at he
  | elem :: rest, path, i => by
    intro e he
    rw [leavesOfSeq, List.mem_append] at he
    rcases he with he | he
    · obtain ⟨q, hq⟩ := leavesOf_extends elem (path ++ [Nat.repr i]) e he
      exact ⟨Nat.repr i :: q, by simp [hq]⟩
    · exact leavesOfSeq_extends rest path (i + 1) e he
end

theorem foldl_childKey_eq_go (rest : List String) (acc : String) (h : acc ≠ "") :
    rest.foldl childKey acc = String.intercalate.go acc "_" rest := by
  induction rest generalizing acc with
  | nil => rfl
  | cons a as ih =>
    have hc : childKey acc a = acc ++ "_" ++ a := by simp [childKey, h]
    have hne : acc ++ "_" ++ a ≠ "" := by
      rw [Ne, string_eq_empty_iff]
      simp
    simp only [List.foldl_cons, String.intercalate.go, hc]
    exact ih _ hne

theorem walkKey_eq_joined (k : String) (q : List String) (h : k ≠ "") :
    walkKey (k :: q) = joined (k :: q) := by
  simp only [walkKey, joined, String.intercalate]
  exact foldl_childKey_eq_go q k h

theorem leaves_walkKey_eq_joined (nested : List (String × Value))
    (htop : ∀ e ∈ nested, e.1 ≠ "") :
    ∀ e ∈ leaves nested, walkKey e.1 = joined e.1 := by
  intro e he
  obtain ⟨k, hk, q, hq⟩ := leavesOfMap_extends nested [] e he
  obtain ⟨e', he', rfl⟩ := List.mem_map.1 hk
  rw [hq, List.nil_append]
  exact walkKey_eq_joined _ q (htop e' he')

theorem flattenToMap_eq_setAll_joined (nested : List (String × Value))
    (htop : ∀ e ∈ nested, e.1 ≠ "") :
    flattenToMap (some nested) =
      GoMap.setAll [] ((leaves nested).map (fun e => (joined e.1, e.2))) := by
  rw [flattenToMap_eq_setAll]
  congr 1
  apply List.map_congr_left
  intro e he
  rw [leaves_walkKey_eq_joined nested htop e he]

/-! ## What `flattenToMap` holds -/

theorem GoMap.set_of_not_mem {α : Type} (m : GoMap α) (k : String) (v : α)
    (h : k ∉ m.keys) : m.set k v = m ++ [(k, v)] := by
  induction m with
  | nil => rfl
  | cons e rest ih =>
    obtain ⟨k', v'⟩ := e
    simp only [GoMap.keys, List.map_cons, List.mem_cons, not_or] at h
    have hne : ¬ k' = k := fun hk => h.1 hk.symm
    simp only [GoMap.set, hne, if_false, List.cons_append]
    rw [ih h.2]

theorem GoMap.setAll_of_nodup {α : Type} (m : GoMap α) (l : List (String × α))
    (hnd : (l.map Prod.fst).Nodup) (hdis : ∀ k ∈ l.map Prod.fst, k ∉ m.keys) :
    GoMap.setAll m l = m ++ l := by
  induction l generalizing m with
  | nil => simp [GoMap.setAll]
  | cons e rest ih =>
    obtain ⟨k, v⟩ := e
    simp only [List.map_cons, List.nodup_cons] at hnd
    have hk : k ∉ m.keys := hdis k (by simp)
    rw [GoMap.setAll, GoMap.set_of_not_mem m k v hk, ih _ hnd.2]
    · simp
    · intro k' hk' hmem
      simp only [GoMap.keys, List.map_append, List.map_cons, List.map_nil, List.mem_append,
        List.mem_singleton] at hmem
      rcases hmem with hmem | hmem
      · exact hdis k' (by simp only [List.map_cons, List.mem_cons]; exact Or.inr hk') hmem
      · exact hnd.1 (hmem ▸ hk')

theorem GoMap.setAll_get?_source {α : Type} (m : GoMap α) (l : List (String × α))
    (x : String) (v : α) (h : (GoMap.setAll m l).get? x = some v) :
    (x, v) ∈ l ∨ m.get? x = some v := by
  induction l generalizing m with
  | nil => exact Or.inr h
  | cons e rest ih =>
    obtain ⟨k, w⟩ := e
    rw [GoMap.setAll] at h
    rcases ih _ h with h1 | h1
    · exact Or.inl (List.mem_cons_of_mem _ h1)
    · by_cases hk : x = k
      · subst hk
        rw [GoMap.get?_set_self] at h1
        cases h1
        exact Or.inl (List.mem_cons_self _ _)
      · rw [GoMap.get?_set_ne _ _ _ _ hk] at h1
        exact Or.inr h1

mutual
theorem leavesOf_leafless : ∀ (v : Value) (path : List String),
    leafless v = true → leavesOf v path = []
  | .leaf t, path => by simp [leafless]
  | .map t, path => by
    rw [leafless, leavesOf]
    exact leavesOfMap_leafless t path
  | .seq t, path => by
    rw [leafless, leavesOf]
    exact leavesOfSeq_leafless t path 0
theorem leavesOfMap_leafless : ∀ (t : List (String × Value)) (path : List String),
    leaflessMap t = true → leavesOfMap t path = []
  | [], path => by simp [leavesOfMap]
  | (k, val) :: rest, path => by
    intro h
    simp only [leaflessMap, Bool.and_eq_true] at h
    rw [leavesOfMap, leavesOf_leafless val _ h.1, leavesOfMap_leafless rest path h.2]
    rfl
theorem leavesOfSeq_leafless : ∀ (t : List Value) (path : List String) (i : Nat),
    leaflessSeq t = true → leavesOfSeq t path i = []
  | [], path, i => by simp [leavesOfSeq]
  | elem :: rest, path, i => by
    intro h
    simp only [leaflessSeq, Bool.and_eq_true] at h
    rw [leavesOfSeq, leavesOf_leafless elem _ h.1, leavesOfSeq_leafless rest path (i + 1) h.2]
    rfl
end

/-- C12. The function `flattenToMap` returns the empty map for a nil map and for
a map with no entries, and more generally for every tree without a leaf, one made
of maps and sequences down to empty ones; it is total, so it never fails. -/
theorem flattenToMap_leafless :
    flattenToMap none = [] ∧ flattenToMap (some []) = [] ∧
      ∀ nested : List (String × Value), leafless (Value.map nested) = true →
        flattenToMap (some nested) = [] := by
  refine ⟨rfl, rfl, ?_⟩
  intro nested h
  rw [flattenToMap_eq_setAll, leaves, leavesOfMap_leafless nested [] (by simpa [leafless] using h)]
  rfl

/-- The witness of C12: a tree of empty maps and empty sequences. -/
theorem flattenToMap_leafless_witness :
    flattenToMap (some [("a", .map []), ("b", .seq [.map [("c", .seq [])], .seq []])]) = [] :=
  flattenToMap_leafless.2.2 _ (by decide)

/-- C13, as amended. For every tree whose top-level keys are not empty and every
leaf of it whose joined path is shared only by leaves that hold the same value,
`flattenToMap` maps the path of the leaf, its segments (map keys and base-10
indices) joined by underscores, to the value of the leaf. -/
theorem flattenToMap_preserves_leaf (nested : List (String × Value))
    (htop : ∀ e ∈ nested, e.1 ≠ "") (path : List String) (t : Scalar)
    (hleaf : (path, t) ∈ leaves nested)
    (hshare : ∀ e ∈ leaves nested, joined e.1 = joined path → e.2 = t) :
    (flattenToMap (some nested)).get? (joined path) = some t := by
  rw [flattenToMap_eq_setAll_joined nested htop, GoMap.setAll_eq_mapsCopyLoop]
  apply mapsCopyLoop_get?_of_mem
  · exact List.mem_map.2 ⟨(path, t), hleaf, rfl⟩
  · intro e he hx
    obtain ⟨e', he', rfl⟩ := List.mem_map.1 he
    exact hshare e' he' hx

/-- The witness of the amended C13: the second element of a sequence under a map. -/
theorem flattenToMap_preserves_leaf_witness :
    (flattenToMap (some [("a", .map [("b", .leaf (.str "x")),
        ("c", .seq [.leaf (.int 3), .leaf .nil])])])).get? (joined ["a", "c", "1"]) =
      some Scalar.nil :=
  flattenToMap_preserves_leaf _ (by decide) ["a", "c", "1"] Scalar.nil (by decide) (by decide)

/-- C13 fails as stated. In the tree `{"a_b": 1, "a": {"b": 2}}` two leaves have the
joined path `a_b`, and the map keeps only the one visited last, in whichever
order the entries are visited.  And in the tree `{"": {"b": 1}}` the leaf with the
path `""`, `b`, joined to `_b`, is stored under `b`. -/
theorem flattenToMap_loses_leaf :
    ((["a_b"], Scalar.int 1) ∈
        leaves [("a_b", .leaf (.int 1)), ("a", .map [("b", .leaf (.int 2))])] ∧
      (flattenToMap (some [("a_b", .leaf (.int 1)), ("a", .map [("b", .leaf (.int 2))])])).get?
        (joined ["a_b"]) = some (Scalar.int 2)) ∧
    ((["a", "b"], Scalar.int 2) ∈
        leaves [("a", .map [("b", .leaf (.int 2))]), ("a_b", .leaf (.int 1))] ∧
      (flattenToMap (some [("a", .map [("b", .leaf (.int 2))]), ("a_b", .leaf (.int 1))])).get?
        (joined ["a", "b"]) = some (Scalar.int 1)) ∧
    ((["", "b"], Scalar.int 1) ∈ leaves [("", .map [("b", .leaf (.int 1))])] ∧
      joined ["", "b"] = "_b" ∧
      flattenToMap (some [("", .map [("b", .leaf (.int 1))])]) = [("b", Scalar.int 1)] ∧
      (flattenToMap (some [("", .map [("b", .leaf (.int 1))])])).get? (joined ["", "b"]) =
        none) := by
  decide

/-- C18. For every tree whose top-level keys are not empty, the keys of
`flattenToMap` are exactly the joined paths of the leaves (a map child adds its
key, the element of index `i` of a sequence adds `i` in base 10), and the value
under a key is the value of a leaf with that joined path; when the joined paths
of the leaves are pairwise distinct, the map has one entry for each leaf, and it
holds the value of the leaf. -/
theorem flattenToMap_keys_are_joined_paths (nested : List (String × Value))
    (htop : ∀ e ∈ nested, e.1 ≠ "") :
    (∀ x, x ∈ (flattenToMap (some nested)).keys ↔ ∃ e ∈ leaves nested, joined e.1 = x) ∧
    (∀ x t, (flattenToMap (some nested)).get? x = some t →
      ∃ e ∈ leaves nested, joined e.1 = x ∧ e.2 = t) ∧
    (((leaves nested).map (fun e => joined e.1)).Nodup →
      (flattenToMap (some nested)).length = (leaves nested).length ∧
      (flattenToMap (some nested)).keys.Nodup ∧
      ∀ e ∈ leaves nested, (flattenToMap (some nested)).get? (joined e.1) = some e.2) := by
  have hflat := flattenToMap_eq_setAll_joined nested htop
  refine ⟨?_, ?_, ?_⟩
  · intro x
    rw [hflat, GoMap.setAll_eq_mapsCopyLoop, mapsCopyLoop_mem_keys]
    simp only [GoMap.keys, List.map_nil, List.not_mem_nil, false_or, List.map_map,
      List.mem_map, Function.comp_apply]
  · intro x t h
    rw [hflat] at h
    rcases GoMap.setAll_get?_source _ _ x t h with h1 | h1
    · obtain ⟨e, he, heq⟩ := List.mem_map.1 h1
      simp only [Prod.mk.injEq] at heq
      exact ⟨e, he, heq.1, heq.2⟩
    · cases h1
  · intro hnd
    have hnd' : (((leaves nested).map (fun e => (joined e.1, e.2))).map Prod.fst).Nodup := by
      simpa [List.map_map, Function.comp] using hnd
    have heq : flattenToMap (some nested) = (leaves nested).map (fun e => (joined e.1, e.2)) := by
      rw [hflat, GoMap.setAll_of_nodup _ _ hnd' (fun _ _ h => by cases h)]
      rfl
    refine ⟨by rw [heq, List.length_map], by rw [heq]; exact hnd', ?_⟩
    intro e he
    rw [heq]
    exact GoMap.get?_of_mem_nodup _ _ _ hnd' (List.mem_map.2 ⟨e, he, rfl⟩)

/-- The witness of C18: a tree with a map and a sequence. -/
theorem flattenToMap_keys_are_joined_paths_witness :
    (flattenToMap (some [("a", .map [("b", .leaf (.str "x")),
        ("c", .seq [.leaf (.int 3), .leaf .nil])])])).length = 3 ∧
    (flattenToMap (some [("a", .map [("b", .leaf (.str "x")),
        ("c", .seq [.leaf (.int 3), .leaf .nil])])])).get? "a_c_1" = some Scalar.nil :=
  ⟨((flattenToMap_keys_are_joined_paths _ (by decide)).2.2 (by decide)).1,
   ((flattenToMap_keys_are_joined_paths
      [("a", .map [("b", .leaf (.str "x")), ("c", .seq [.leaf (.int 3), .leaf .nil])])]
      (by decide)).2.2 (by decide)).2.2 (["a", "c", "1"], Scalar.nil) (by decide)⟩

/-! ## Independence of the visiting order -/

theorem leavesOfMap_perm (l₁ l₂ : List (String × Value)) (path : List String)
    (h : l₁.Perm l₂) : (leavesOfMap l₁ path).Perm (leavesOfMap l₂ path) := by
  induction h with
  | nil => exact List.Perm.refl _
  | cons e _ ih =>
    obtain ⟨k, v⟩ := e
    simp only [leavesOfMap]
    exact List.Perm.append_left _ ih
  | swap e₁ e₂ l =>
    obtain ⟨k₁, v₁⟩ := e₁
    obtain ⟨k₂, v₂⟩ := e₂
    simp only [leavesOfMap]
    rw [← List.append_assoc, ← List.append_assoc]
    exact List.Perm.append_right _ List.perm_append_comm
  | trans _ _ ih₁ ih₂ => exact ih₁.trans ih₂

mutual
theorem leavesOf_revisit (ro : RangeOrder) : ∀ (v : Value) (path : List String),
    (leavesOf (revisit ro v) path).Perm (leavesOf v path)
  | .leaf t, path => by
    rw [revisit]
  | .map t, path => by
    rw [revisit, leavesOf, leavesOf]
    exact (leavesOfMap_perm _ _ path (ro.perm _)).trans (leavesOfMap_revisit ro t path)
  | .seq t, path => by
    rw [revisit, leavesOf, leavesOf]
    exact leavesOfSeq_revisit ro t path 0
theorem leavesOfMap_revisit (ro : RangeOrder) : ∀ (t : List (String × Value))
    (path : List String), (leavesOfMap (revisitMap ro t) path).Perm (leavesOfMap t path)
  | [], path => by
    rw [revisitMap]
  | (k, val) :: rest, path => by
    rw [revisitMap, leavesOfMap, leavesOfMap]
    exact List.Perm.append (leavesOf_revisit ro val _) (leavesOfMap_revisit ro rest path)
theorem leavesOfSeq_revisit (ro : RangeOrder) : ∀ (t : List Value) (path : List String)
    (i : Nat), (leavesOfSeq (revisitSeq ro t) path i).Perm (leavesOfSeq t path i)
  | [], path, i => by
    rw [revisitSeq]
  | elem :: rest, path, i => by
    rw [revisitSeq, leavesOfSeq, leavesOfSeq]
    exact List.Perm.append (leavesOf_revisit ro elem _) (leavesOfSeq_revisit ro rest path (i + 1))
end

theorem leaves_revisitTop (ro : RangeOrder) (nested : List (String × Value)) :
    (leaves (revisitTop ro nested)).Perm (leaves nested) := by
  unfold leaves revisitTop
  exact (leavesOfMap_perm _ _ [] (ro.perm _)).trans (leavesOfMap_revisit ro nested [])

theorem GoMap.get?_eq_of_perm {α : Type} (l₁ l₂ : GoMap α) (h : l₁.Perm l₂)
    (hnd : l₁.keys.Nodup) (x : String) : l₁.get? x = l₂.get? x := by
  have hnd₂ : l₂.keys.Nodup := (h.map Prod.fst).nodup_iff.1 hnd
  cases h₁ : l₁.get? x with
  | some v =>
    exact (GoMap.get?_of_mem_nodup l₂ x v hnd₂ (h.mem_iff.1 (GoMap.mem_of_get? l₁ x v h₁))).symm
  | none =>
    cases h₂ : l₂.get? x with
    | none => rfl
    | some v =>
      have := GoMap.get?_of_mem_nodup l₁ x v hnd (h.mem_iff.2 (GoMap.mem_of_get? l₂ x v h₂))
      rw [h₁] at this
      cases this

theorem toField_eq_none (pfx : String) (e : String × Scalar)
    (h : fieldLoop e.1.data "" = none) : toField pfx e = none := by
  simp [toField, h]

theorem fieldsLoop_of_nodup (pfx : String) (visited : List (String × Scalar))
    (fields : GoMap String)
    (hnd : (visited.filterMap (fun e => fieldLoop e.1.data "")).Nodup)
    (hdis : ∀ e ∈ visited, ∀ field, fieldLoop e.1.data "" = some field →
      pfx ++ field ∉ fields.keys) :
    fieldsLoop pfx visited fields = fields ++ visited.filterMap (toField pfx) := by
  induction visited generalizing fields with
  | nil => simp [fieldsLoop]
  | cons e rest ih =>
    obtain ⟨k, v⟩ := e
    cases hf : fieldLoop k.data "" with
    | none =>
      have hnd' : (rest.filterMap (fun e => fieldLoop e.1.data "")).Nodup := by
        simpa [List.filterMap_cons, hf] using hnd
      simp only [fieldsLoop, hf, List.filterMap_cons, toField, Option.map_none']
      exact ih fields hnd' (fun e he => hdis e (List.mem_cons_of_mem _ he))
    | some field =>
      have hnd' : field ∉ rest.filterMap (fun e => fieldLoop e.1.data "") ∧
          (rest.filterMap (fun e => fieldLoop e.1.data "")).Nodup := by
        simpa [List.filterMap_cons, hf] using hnd
      have hk : pfx ++ field ∉ fields.keys := hdis (k, v) (List.mem_cons_self _ _) field hf
      simp only [fieldsLoop, hf, List.filterMap_cons, toField, Option.map_some']
      rw [GoMap.set_of_not_mem _ _ _ hk, ih _ hnd'.2]
      · simp
      · intro e he field' hf' hmem
        simp only [GoMap.keys, List.map_append, List.map_cons, List.map_nil, List.mem_append,
          List.mem_singleton] at hmem
        rcases hmem with hmem | hmem
        · exact hdis e (List.mem_cons_of_mem _ he) field' hf' hmem
        · have heq : field' = field := string_append_cancel_left _ _ _ hmem
          apply hnd'.1
          rw [← heq]
          exact List.mem_filterMap.2 ⟨e, he, hf'⟩

theorem GoMap.filterMap_set_of_none {α β : Type} (g : String × α → Option β)
    (m : GoMap α) (k : String) (v : α) (hk : ∀ w, g (k, w) = none) :
    (m.set k v).filterMap g = m.filterMap g := by
  induction m with
  | nil => simp [GoMap.set, hk]
  | cons e rest ih =>
    obtain ⟨k', v'⟩ := e
    by_cases h : k' = k
    · subst h
      simp [GoMap.set, List.filterMap_cons, hk]
    · simp only [GoMap.set, h, if_false, List.filterMap_cons]
      rw [ih]

theorem GoMap.filterMap_setAll {β : Type} (g : String × Scalar → Option β)
    (hg : ∀ e, fieldLoop e.1.data "" = none → g e = none)
    (m : GoMap Scalar) (l : List (String × Scalar))
    (hnd : (l.filterMap (fun e => fieldLoop e.1.data "")).Nodup)
    (hdis : ∀ e ∈ l, (∃ field, fieldLoop e.1.data "" = some field) → e.1 ∉ m.keys) :
    (GoMap.setAll m l).filterMap g = m.filterMap g ++ l.filterMap g := by
  induction l generalizing m with
  | nil => simp [GoMap.setAll]
  | cons e rest ih =>
    obtain ⟨k, v⟩ := e
    rw [GoMap.setAll]
    cases hf : fieldLoop k.data "" with
    | none =>
      have hnd' : (rest.filterMap (fun e => fieldLoop e.1.data "")).Nodup := by
        simpa [List.filterMap_cons, hf] using hnd
      rw [ih _ hnd', GoMap.filterMap_set_of_none g m k v (fun w => hg (k, w) hf),
        List.filterMap_cons, hg (k, v) hf]
      intro e he hsome hmem
      rcases (GoMap.mem_keys_set m k e.1 v).1 hmem with h1 | h1
      · obtain ⟨field, hfield⟩ := hsome
        rw [h1, hf] at hfield
        cases hfield
      · exact hdis e (List.mem_cons_of_mem _ he) hsome h1
    | some field =>
      have hnd' : field ∉ rest.filterMap (fun e => fieldLoop e.1.data "") ∧
          (rest.filterMap (fun e => fieldLoop e.1.data "")).Nodup := by
        simpa [List.filterMap_cons, hf] using hnd
      have hk : k ∉ m.keys := hdis (k, v) (List.mem_cons_self _ _) ⟨field, hf⟩
      rw [GoMap.set_of_not_mem m k v hk, ih _ hnd'.2]
      · simp [List.filterMap_append, List.filterMap_cons]
        cases g (k, v) <;> simp
      · intro e he hsome hmem
        simp only [GoMap.keys, List.map_append, List.map_cons, List.map_nil, List.mem_append,
          List.mem_singleton] at hmem
        rcases hmem with hmem | hmem
        · exact hdis e (List.mem_cons_of_mem _ he) hsome hmem
        · apply hnd'.1
          refine List.mem_filterMap.2 ⟨e, he, ?_⟩
          rw [hmem, hf]

theorem attrsToFields_eq_filterMap {Attr Record : Type} (lib : SlogCommon Attr Record)
    (ro : RangeOrder) (pfx : String) (attrs : List Attr)
    (hnd : ((flattenToMap (lib.AttrsToMap attrs)).filterMap
      (fun e => fieldLoop e.1.data "")).Nodup) :
    attrsToFields lib ro pfx attrs =
      (ro.visit (flattenToMap (lib.AttrsToMap attrs))).filterMap (toField pfx) := by
  unfold attrsToFields
  have hnd' : ((ro.visit (flattenToMap (lib.AttrsToMap attrs))).filterMap
      (fun e => fieldLoop e.1.data "")).Nodup :=
    ((ro.perm _).filterMap _).nodup_iff.2 hnd
  rw [fieldsLoop_of_nodup pfx _ [] hnd' (fun _ _ _ _ h => by cases h)]
  rfl

theorem attrsToFields_perm_filterMap {Attr Record : Type} (lib : SlogCommon Attr Record)
    (ro : RangeOrder) (pfx : String) (attrs : List Attr)
    (hnd : ((flattenToMap (lib.AttrsToMap attrs)).filterMap
      (fun e => fieldLoop e.1.data "")).Nodup) :
    (attrsToFields lib ro pfx attrs).Perm
      ((flattenToMap (lib.AttrsToMap attrs)).filterMap (toField pfx)) := by
  rw [attrsToFields_eq_filterMap lib ro pfx attrs hnd]
  exact (ro.perm _).filterMap _

theorem flattenToMap_filterMap_leaves {β : Type} (g : String × Scalar → Option β)
    (hg : ∀ e, fieldLoop e.1.data "" = none → g e = none)
    (nested : List (String × Value))
    (hnd : ((leaves nested).filterMap (fun e => fieldLoop (walkKey e.1).data "")).Nodup) :
    (flattenToMap (some nested)).filterMap g =
      ((leaves nested).map (fun e => (walkKey e.1, e.2))).filterMap g := by
  rw [flattenToMap_eq_setAll, GoMap.filterMap_setAll g hg [] _ ?_ (fun _ _ _ h => by cases h)]
  · rfl
  · rw [List.filterMap_map]
    exact hnd

/-- C21, as amended. Under every prefix, the fields that `attrsToFields` builds
do not depend on the order in which the intermediate flat map is visited
whenever the flattened keys that pass sanitization are pairwise distinct after
upper-casing: every order gives the same field map, with exactly one field for
each valid flattened key, holding the stringified value of the key.  They do
not depend on the order in which the nested maps are visited either when the
flattened keys of the leaves that pass sanitization are pairwise distinct after
upper-casing, so that no two leaves are flattened to the same valid key. -/
theorem attrsToFields_order_independent {Attr₁ Record₁ Attr₂ Record₂ : Type}
    (lib₁ : SlogCommon Attr₁ Record₁) (lib₂ : SlogCommon Attr₂ Record₂)
    (ro₁ ro₂ : RangeOrder) (pfx : String) (attrs₁ : List Attr₁) (attrs₂ : List Attr₂)
    (n₁ n₂ : List (String × Value))
    (h₁ : lib₁.AttrsToMap attrs₁ = some n₁) (h₂ : lib₂.AttrsToMap attrs₂ = some n₂)
    (hsame : (leaves n₁).Perm (leaves n₂)) :
    (((flattenToMap (some n₁)).filterMap (fun e => fieldLoop e.1.data "")).Nodup →
      (∀ x, (attrsToFields lib₁ ro₁ pfx attrs₁).get? x =
        (attrsToFields lib₁ ro₂ pfx attrs₁).get? x) ∧
      (attrsToFields lib₁ ro₁ pfx attrs₁).Perm (attrsToFields lib₁ ro₂ pfx attrs₁) ∧
      (attrsToFields lib₁ ro₁ pfx attrs₁).Perm
        ((flattenToMap (some n₁)).filterMap (toField pfx))) ∧
    (((leaves n₁).filterMap (fun e => fieldLoop (walkKey e.1).data "")).Nodup →
      (∀ x, (attrsToFields lib₁ ro₁ pfx attrs₁).get? x =
        (attrsToFields lib₂ ro₂ pfx attrs₂).get? x) ∧
      (attrsToFields lib₁ ro₁ pfx attrs₁).Perm (attrsToFields lib₂ ro₂ pfx attrs₂) ∧
      (attrsToFields lib₁ ro₁ pfx attrs₁).Perm
        (((leaves n₁).map (fun e => (walkKey e.1, e.2))).filterMap (toField pfx))) := by
  constructor
  · intro hnd
    have hnd' : ((flattenToMap (lib₁.AttrsToMap attrs₁)).filterMap
        (fun e => fieldLoop e.1.data "")).Nodup := by rw [h₁]; exact hnd
    have p₁ := attrsToFields_perm_filterMap lib₁ ro₁ pfx attrs₁ hnd'
    have p₂ := attrsToFields_perm_filterMap lib₁ ro₂ pfx attrs₁ hnd'
    have p := p₁.trans p₂.symm
    refine ⟨GoMap.get?_eq_of_perm _ _ p (attrsToFields_nodup_keys lib₁ ro₁ pfx attrs₁), p, ?_⟩
    rw [← h₁]
    exact p₁
  · intro hnd
    have hnd₂ : ((leaves n₂).filterMap (fun e => fieldLoop (walkKey e.1).data "")).Nodup :=
      (hsame.filterMap _).nodup_iff.1 hnd
    have hflat₁ : ((flattenToMap (lib₁.AttrsToMap attrs₁)).filterMap
        (fun e => fieldLoop e.1.data "")).Nodup := by
      rw [h₁, flattenToMap_filterMap_leaves _ (fun _ h => h) n₁ hnd, List.filterMap_map]
      exact hnd
    have hflat₂ : ((flattenToMap (lib₂.AttrsToMap attrs₂)).filterMap
        (fun e => fieldLoop e.1.data "")).Nodup := by
      rw [h₂, flattenToMap_filterMap_leaves _ (fun _ h => h) n₂ hnd₂, List.filterMap_map]
      exact hnd₂
    have p₁ := attrsToFields_perm_filterMap lib₁ ro₁ pfx attrs₁ hflat₁
    have p₂ := attrsToFields_perm_filterMap lib₂ ro₂ pfx attrs₂ hflat₂
    rw [h₁, flattenToMap_filterMap_leaves _ (toField_eq_none pfx) n₁ hnd] at p₁
    rw [h₂, flattenToMap_filterMap_leaves _ (toField_eq_none pfx) n₂ hnd₂] at p₂
    have pmid : (((leaves n₁).map (fun e => (walkKey e.1, e.2))).filterMap (toField pfx)).Perm
        (((leaves n₂).map (fun e => (walkKey e.1, e.2))).filterMap (toField pfx)) :=
      (hsame.map _).filterMap _
    have p := p₁.trans (pmid.trans p₂.symm)
    exact ⟨GoMap.get?_eq_of_perm _ _ p (attrsToFields_nodup_keys lib₁ ro₁ pfx attrs₁), p, p₁⟩

/-- The witness of the amended C21: a tree with a nested map, a sequence and a key
that is skipped, visited in the order listed and with every map and the flat map
visited backwards. -/
theorem attrsToFields_order_independent_witness :
    (∀ x, (attrsToFields plainLib RangeOrder.inOrder "SLOG_"
        [("uuid", .leaf (.str "X")), ("bad-key", .leaf (.int 1)),
          ("a", .map [("b", .leaf (.int 2)), ("c", .seq [.leaf .nil, .leaf (.bool true)])])]).get? x =
      (attrsToFields plainLib RangeOrder.backwards "SLOG_"
        (revisitTop RangeOrder.backwards
          [("uuid", .leaf (.str "X")), ("bad-key", .leaf (.int 1)),
            ("a", .map [("b", .leaf (.int 2)),
              ("c", .seq [.leaf .nil, .leaf (.bool true)])])])).get? x) ∧
    attrsToFields plainLib RangeOrder.inOrder "SLOG_"
        [("uuid", .leaf (.str "X")), ("bad-key", .leaf (.int 1)),
          ("a", .map [("b", .leaf (.int 2)), ("c", .seq [.leaf .nil, .leaf (.bool true)])])] =
      [("SLOG_UUID", "X"), ("SLOG_A_B", "2"), ("SLOG_A_C_0", "<nil>"), ("SLOG_A_C_1", "true")] :=
  ⟨((attrsToFields_order_independent plainLib plainLib RangeOrder.inOrder RangeOrder.backwards
      "SLOG_" _ _ _ _ rfl rfl (leaves_revisitTop RangeOrder.backwards _).symm).2
      (by decide)).1,
   by decide⟩

/-- C21 fails as stated. The tree `{"a_b": 1, "a": {"b": 2}}` has the single
flattened key `a_b`, which passes sanitization, but two leaves are flattened to
it: visited in the order listed the field `SLOG_A_B` holds `2`, and with the
top-level map visited backwards it holds `1`. -/
theorem attrsToFields_depends_on_nested_order :
    revisitTop RangeOrder.backwards
        [("a_b", .leaf (.int 1)), ("a", .map [("b", .leaf (.int 2))])] =
      [("a", .map [("b", .leaf (.int 2))]), ("a_b", .leaf (.int 1))] ∧
    (flattenToMap (some [("a_b", .leaf (.int 1)), ("a", .map [("b", .leaf (.int 2))])])).keys =
      ["a_b"] ∧
    (flattenToMap (some [("a", .map [("b", .leaf (.int 2))]), ("a_b", .leaf (.int 1))])).keys =
      ["a_b"] ∧
    ((flattenToMap (some [("a_b", .leaf (.int 1)), ("a", .map [("b", .leaf (.int 2))])])).filterMap
      (fun e => fieldLoop e.1.data "")).Nodup ∧
    attrsToFields plainLib RangeOrder.inOrder "SLOG_"
        [("a_b", .leaf (.int 1)), ("a", .map [("b", .leaf (.int 2))])] = [("SLOG_A_B", "2")] ∧
    attrsToFields plainLib RangeOrder.inOrder "SLOG_"
        [("a", .map [("b", .leaf (.int 2))]), ("a_b", .leaf (.int 1))] = [("SLOG_A_B", "1")] :=
  ⟨rfl, by decide, by decide, by decide, by decide, by decide⟩

end SlogJournal
